import Mathlib

/-!
# Verification of the Query Safety & Controlled Execution layer

A shallow embedding, in Lean 4, of the security-critical core of the
`db-analyzer-mcp` repository:

* `src/security/sql-validator.ts` — `validateQuery` (StatementValidator) and
  `enforceLimit` (LimitRewriter);
* the identifier guard (`validateIdentifier`, `quoteIdentifier`);
* `src/tools/query.ts` — `dbExportBatch` (BatchExportEngine).

Strings are modelled as `List Char` (via `String.data`).  JavaScript regular
expressions used by the source are small and fixed, so each one is embedded as
an explicit matcher; each matcher carries a comment explaining why it is
equivalent to the backtracking semantics of the original pattern.  JavaScript's
`toUpperCase` is modelled by `Char.toUpper` (ASCII case mapping), and the `\s`
class by `jsIsWS` below (the ASCII whitespace characters plus NBSP; the
exotic Unicode space separators never interact with the ASCII-only patterns).
-/

namespace DbAnalyzer

/-- JavaScript `\s` / `trim` whitespace class (restricted to the characters
relevant to the embedding: ASCII whitespace and NBSP). -/
def jsIsWS (c : Char) : Bool :=
  c = ' ' || c = '\t' || c = '\n' || c = '\r' || c = '\x0b' || c = '\x0c' || c = ' '

/-- `String.prototype.trim`: drop whitespace from both ends. -/
def trimWS (l : List Char) : List Char :=
  ((l.dropWhile jsIsWS).reverse.dropWhile jsIsWS).reverse

/-- `replace(/\s+/g, ' ')`: every maximal whitespace run becomes one space. -/
def collapseWS : List Char → List Char
  | [] => []
  | [c] => if jsIsWS c then [' '] else [c]
  | a :: b :: rest =>
    if jsIsWS a && jsIsWS b then collapseWS (b :: rest)
    else (if jsIsWS a then ' ' else a) :: collapseWS (b :: rest)

/-- `String.prototype.toUpperCase` (ASCII). -/
def upperL (l : List Char) : List Char := l.map Char.toUpper

/-- `sql.trim().replace(/\s+/g, ' ')` — the validator's normalization. -/
def normalizeSQL (s : String) : List Char := collapseWS (trimWS s.data)

/-- `String.prototype.includes`: `w` occurs as a contiguous substring. -/
def containsSub (w : List Char) : List Char → Bool
  | [] => w.isEmpty
  | c :: rest => w.isPrefixOf (c :: rest) || containsSub w rest

/-- JavaScript regex `\w` class: `[A-Za-z0-9_]`. -/
def isWordChar (c : Char) : Bool := c.isAlpha || c.isDigit || c = '_'

/-- A `\b` word boundary next to a word character of the pattern: the adjacent
text character (if any) must not be a word character. -/
def wordBoundaryOk : Option Char → Bool
  | none => true
  | some c => !isWordChar c

/-- The pattern `w\b` matches at the head of `l` (for patterns whose last
character is a word character, as all blocked keywords are). -/
def wordAt (w l : List Char) : Bool :=
  w.isPrefixOf l && wordBoundaryOk ((l.drop w.length).head?)

/-- Scan for `\bw\b` tracking the character before the current position. -/
def occursAsWordAux (w : List Char) (prev : Option Char) : List Char → Bool
  | [] => false
  | c :: rest =>
    (wordBoundaryOk prev && wordAt w (c :: rest)) || occursAsWordAux w (some c) rest

/-- `new RegExp("\\b" ++ kw ++ "\\b").test l` for a keyword starting and ending
with word characters. -/
def occursAsWord (w l : List Char) : Bool := occursAsWordAux w none l

/-- The write keywords of the injection pattern
`/;\s*(INSERT|UPDATE|DELETE|DROP|ALTER|TRUNCATE|CREATE)/i`. -/
def INJECTION_WORDS : List String :=
  ["INSERT", "UPDATE", "DELETE", "DROP", "ALTER", "TRUNCATE", "CREATE"]

/-- `/;\s*(INSERT|...)/i` on an uppercased text.  Since every alternative
starts with a non-whitespace character, the greedy `\s*` is equivalent to
`dropWhile jsIsWS`. -/
def semiWritePat : List Char → Bool
  | [] => false
  | c :: rest =>
    (c = ';' && INJECTION_WORDS.any fun w => w.data.isPrefixOf (rest.dropWhile jsIsWS))
    || semiWritePat rest

/-- `w1\s+w2` anywhere in the text (e.g. `INTO\s+OUTFILE`).  `w2` starts with
a non-whitespace character, so the greedy `\s+` is one whitespace character
followed by `dropWhile jsIsWS`. -/
def gapPat (w1 w2 : List Char) : List Char → Bool
  | [] => false
  | c :: rest =>
    (w1.isPrefixOf (c :: rest)
      && (match (c :: rest).drop w1.length with
          | d :: tail => jsIsWS d && w2.isPrefixOf (tail.dropWhile jsIsWS)
          | [] => false))
    || gapPat w1 w2 rest

/-- A whitespace character immediately followed by `TO`, anywhere. -/
def hasWsTO : List Char → Bool
  | [] => false
  | c :: rest => (jsIsWS c && "TO".data.isPrefixOf rest) || hasWsTO rest

/-- `/COPY\s+.*\s+TO/i`: `COPY`, at least one whitespace character, then —
somewhere strictly later — a whitespace character immediately followed by
`TO` (`.*` absorbs everything in between; the text this is applied to has had
newlines collapsed away, so `.` matches every remaining character). -/
def copyToPat : List Char → Bool
  | [] => false
  | c :: rest =>
    ("COPY".data.isPrefixOf (c :: rest)
      && (match (c :: rest).drop 4 with
          | d :: tail => jsIsWS d && hasWsTO tail
          | [] => false))
    || copyToPat rest

/-- The `DANGEROUS_PATTERNS` array.  All patterns carry the `i` flag and are
tested against the normalized statement; we test against its uppercase image,
which is equivalent because every literal in the patterns is case-stable under
uppercasing. -/
def dangerousPat (u : List Char) : Bool :=
  semiWritePat u
  || gapPat "INTO".data "OUTFILE".data u
  || gapPat "INTO".data "DUMPFILE".data u
  || containsSub "LOAD_FILE".data u
  || containsSub "PG_READ_FILE".data u
  || containsSub "PG_WRITE_FILE".data u
  || containsSub "LO_IMPORT".data u
  || containsSub "LO_EXPORT".data u
  || copyToPat u
  || containsSub "PG_TERMINATE_BACKEND".data u
  || containsSub "PG_CANCEL_BACKEND".data u

/-- `BLOCKED_KEYWORDS` from `sql-validator.ts`. -/
def BLOCKED_KEYWORDS : List String :=
  ["INSERT", "UPDATE", "DELETE", "DROP", "ALTER", "TRUNCATE", "CREATE",
   "GRANT", "REVOKE", "EXECUTE", "CALL", "COPY", "VACUUM", "REINDEX",
   "CLUSTER", "COMMENT", "SECURITY", "OWNER", "SET ROLE", "RESET"]

/-- `ALLOWED_PREFIXES` from `sql-validator.ts`. -/
def ALLOWED_PREFIXES : List String := ["SELECT", "EXPLAIN", "SHOW", "WITH"]

/-- `ValidationResult` from `sql-validator.ts`. -/
structure ValidationResult where
  valid : Bool
  error : Option String := none
  normalized : Option String := none
deriving DecidableEq, Repr

/-- The body of `validateQuery` after normalization (`normalized` is the
already trimmed-and-collapsed statement). -/
def validateNorm (n : List Char) (allowedStatements : List String) : ValidationResult :=
  if n.length = 0 then ⟨false, some "Query cannot be empty", none⟩
  else if 100000 < n.length then ⟨false, some "Query too long (max 100KB)", none⟩
  else if !(allowedStatements.any fun p => p.data.isPrefixOf (upperL n)) then
    ⟨false, some ("Query must start with one of: " ++ String.intercalate ", " allowedStatements),
      none⟩
  else
    match BLOCKED_KEYWORDS.find? (fun kw => occursAsWord kw.data (upperL n)) with
    | some kw =>
      ⟨false, some ("Blocked keyword detected: " ++ kw ++ ". Only read operations are allowed."),
        none⟩
    | none =>
      if dangerousPat (upperL n) then
        ⟨false, some "Potentially dangerous SQL pattern detected", none⟩
      else if 1 < n.count ';' ∨ (n.count ';' = 1 ∧ n.getLast? ≠ some ';') then
        ⟨false, some "Multiple statements not allowed. Execute one query at a time.", none⟩
      else ⟨true, none, some (String.mk n)⟩

/-- `validateQuery` from `sql-validator.ts`.  The `!sql` guard corresponds to
the empty string (the only falsy string); the non-string case cannot arise in
a typed embedding. -/
def validateQuery (sql : String) (allowedStatements : List String := ALLOWED_PREFIXES) :
    ValidationResult :=
  if sql.data.isEmpty then ⟨false, some "Query must be a non-empty string", none⟩
  else validateNorm (normalizeSQL sql) allowedStatements

example : (validateQuery "SELECT * FROM t").valid = true := by decide
example : (validateQuery "  select *\n from   t ").normalized = some "select * from t" := by decide
example : (validateQuery "update users set x=1").valid = false := by decide
example : (validateQuery "SELECT * FROM t; DROP TABLE t").valid = false := by decide
example : (validateQuery "SELECT deleted_at FROM events").valid = true := by decide
example : (validateQuery "SELECT * FROM t;").valid = true := by decide
example : (validateQuery "SELECT 1; SELECT 2").valid = false := by decide
example : (validateQuery "SELECT load_file('x')").valid = false := by decide
example : (validateQuery "SELECT x FROM copyright").valid = true := by decide

/-! ### Shape of the normalized statement -/

/-- No two adjacent whitespace characters. -/
def noAdjWS : List Char → Bool
  | a :: b :: rest => !(jsIsWS a && jsIsWS b) && noAdjWS (b :: rest)
  | _ => true

/-- The shape `trim` plus `replace(/\s+/g, ' ')` guarantees: every whitespace
character is a single space, no two whitespace characters are adjacent, and
neither end is whitespace. -/
def isCollapsed (l : List Char) : Bool :=
  l.all (fun c => !jsIsWS c || c == ' ') && noAdjWS l
  && (match l.head? with | some c => !jsIsWS c | none => true)
  && (match l.getLast? with | some c => !jsIsWS c | none => true)

theorem head?_dropWhile_ws {l : List Char} {c : Char}
    (h : (l.dropWhile jsIsWS).head? = some c) : jsIsWS c = false := by
  have hd := List.head?_dropWhile_not jsIsWS l
  rw [h] at hd
  exact hd

theorem trimWS_head? {l : List Char} {c : Char} (h : (trimWS l).head? = some c) :
    jsIsWS c = false := by
  obtain ⟨t, ht⟩ := List.dropWhile_suffix (l := (l.dropWhile jsIsWS).reverse) (p := jsIsWS)
  have hrev : trimWS l ++ t.reverse = l.dropWhile jsIsWS := by
    have h2 := congrArg List.reverse ht
    simpa [trimWS, List.reverse_append] using h2
  have h3 : (l.dropWhile jsIsWS).head? = some c := by
    rw [← hrev, List.head?_append, h]
    rfl
  exact head?_dropWhile_ws h3

theorem trimWS_getLast? {l : List Char} {c : Char} (h : (trimWS l).getLast? = some c) :
    jsIsWS c = false := by
  unfold trimWS at h
  rw [List.getLast?_reverse] at h
  exact head?_dropWhile_ws h

theorem collapseWS_cons (b : Char) (rest : List Char) :
    ∃ t, collapseWS (b :: rest) = (if jsIsWS b then ' ' else b) :: t := by
  induction rest generalizing b with
  | nil => exact ⟨[], by by_cases hb : jsIsWS b <;> simp [collapseWS, hb]⟩
  | cons c rs ih =>
    by_cases hw : (jsIsWS b && jsIsWS c) = true
    · obtain ⟨t, ht⟩ := ih c
      obtain ⟨hb, hc⟩ : jsIsWS b = true ∧ jsIsWS c = true := by simpa using hw
      refine ⟨t, ?_⟩
      have hstep : collapseWS (b :: c :: rs) = collapseWS (c :: rs) := by
        simp [collapseWS, hw]
      rw [hstep, ht, if_pos hb, if_pos hc]
    · exact ⟨collapseWS (c :: rs), by simp [collapseWS, hw]⟩

theorem collapseWS_mem_ws {l : List Char} {c : Char} (hc : c ∈ collapseWS l)
    (hw : jsIsWS c = true) : c = ' ' := by
  induction l using collapseWS.induct with
  | case1 => simp [collapseWS] at hc
  | case2 d hd =>
    simp only [collapseWS, if_pos hd, List.mem_singleton] at hc
    exact hc
  | case3 d hd =>
    simp only [collapseWS, if_neg hd, List.mem_singleton] at hc
    exact absurd (hc ▸ hw) (by simpa using hd)
  | case4 a b rest hab ih =>
    have hstep : collapseWS (a :: b :: rest) = collapseWS (b :: rest) := by
      simp [collapseWS, hab]
    rw [hstep] at hc
    exact ih hc
  | case5 a b rest hab ih =>
    have hstep : collapseWS (a :: b :: rest) =
        (if jsIsWS a then ' ' else a) :: collapseWS (b :: rest) := by
      simp [collapseWS, hab]
    rw [hstep] at hc
    rcases List.mem_cons.mp hc with h | h
    · by_cases ha : jsIsWS a
      · rw [if_pos ha] at h
        exact h
      · rw [if_neg ha] at h
        exact absurd (h ▸ hw) (by simpa using ha)
    · exact ih h

theorem collapseWS_noAdjWS (l : List Char) : noAdjWS (collapseWS l) = true := by
  induction l using collapseWS.induct with
  | case1 => rfl
  | case2 d hd => simp [collapseWS, if_pos hd, noAdjWS]
  | case3 d hd => simp [collapseWS, if_neg hd, noAdjWS]
  | case4 a b rest hab ih =>
    have hstep : collapseWS (a :: b :: rest) = collapseWS (b :: rest) := by
      simp [collapseWS, hab]
    rw [hstep]
    exact ih
  | case5 a b rest hab ih =>
    have hstep : collapseWS (a :: b :: rest) =
        (if jsIsWS a then ' ' else a) :: collapseWS (b :: rest) := by
      simp [collapseWS, hab]
    rw [hstep]
    obtain ⟨t, ht⟩ := collapseWS_cons b rest
    rw [ht]
    rw [ht] at ih
    simp only [noAdjWS, ih, Bool.and_true]
    by_cases ha : jsIsWS a
    · have hb : jsIsWS b = false := by
        cases hb : jsIsWS b
        · rfl
        · exact absurd (by simp [ha, hb]) hab
      simp [ha, hb]
    · simp [ha]

theorem collapseWS_getLast? (l : List Char) :
    (collapseWS l).getLast? = l.getLast?.map (fun d => if jsIsWS d then ' ' else d) := by
  induction l using collapseWS.induct with
  | case1 => rfl
  | case2 d hd => simp [collapseWS, if_pos hd]
  | case3 d hd => simp [collapseWS, if_neg hd]
  | case4 a b rest hab ih =>
    have hstep : collapseWS (a :: b :: rest) = collapseWS (b :: rest) := by
      simp [collapseWS, hab]
    rw [hstep, ih, List.getLast?_cons_cons]
  | case5 a b rest hab ih =>
    have hstep : collapseWS (a :: b :: rest) =
        (if jsIsWS a then ' ' else a) :: collapseWS (b :: rest) := by
      simp [collapseWS, hab]
    rw [hstep, List.getLast?_cons_cons, ← ih]
    obtain ⟨t, ht⟩ := collapseWS_cons b rest
    rw [List.getLast?_cons, ht]
    simp [List.getLast?_cons]

theorem isCollapsed_normalizeSQL (s : String) : isCollapsed (normalizeSQL s) = true := by
  unfold isCollapsed normalizeSQL
  simp only [Bool.and_eq_true]
  refine ⟨⟨⟨?_, ?_⟩, ?_⟩, ?_⟩
  · rw [List.all_eq_true]
    intro c hc
    by_cases hw : jsIsWS c
    · have := collapseWS_mem_ws hc hw
      simp [this]
    · simp [hw]
  · exact collapseWS_noAdjWS _
  · cases htrim : trimWS s.data with
    | nil => rfl
    | cons b rest =>
      obtain ⟨t, ht⟩ := collapseWS_cons b rest
      rw [ht]
      have hb : jsIsWS b = false := trimWS_head? (by rw [htrim]; rfl)
      simp [hb]
  · rw [collapseWS_getLast?]
    cases hlast : (trimWS s.data).getLast? with
    | none => rfl
    | some d =>
      have hd : jsIsWS d = false := trimWS_getLast? hlast
      simp [hd]

/-! ### ASCII uppercase facts -/

theorem char_toNat_ofNat {m : Nat} (h : m < 55296) : (Char.ofNat m).toNat = m := by
  rw [Char.ofNat, dif_pos (Or.inl h)]
  rfl

theorem toUpper_idem (c : Char) : c.toUpper.toUpper = c.toUpper := by
  unfold Char.toUpper
  by_cases h : c.toNat ≥ 97 ∧ c.toNat ≤ 122
  · rw [if_pos h]
    have h32 : (Char.ofNat (c.toNat - 32)).toNat = c.toNat - 32 :=
      char_toNat_ofNat (by omega)
    rw [if_neg]
    rw [h32]
    omega
  · rw [if_neg h, if_neg h]

theorem upperL_idem (l : List Char) : upperL (upperL l) = upperL l := by
  simp only [upperL, List.map_map]
  exact List.map_congr_left fun c _ => toUpper_idem c

theorem upperL_append (a b : List Char) : upperL (a ++ b) = upperL a ++ upperL b :=
  List.map_append _ a b

/-- If a configured keyword is (verbatim) a leading segment of the uppercased
statement, then the statement starts with the keyword case-insensitively. -/
theorem upper_pre_of_pre {p n : List Char} (h : p.isPrefixOf (upperL n) = true) :
    (upperL p).isPrefixOf (upperL n) = true := by
  rw [List.isPrefixOf_iff_prefix] at h ⊢
  obtain ⟨t, ht⟩ := h
  have := congrArg upperL ht
  rw [upperL_idem, upperL_append] at this
  exact ⟨upperL t, this⟩

/-! ### Claim C1: shape of the validator's outcome -/

theorem validateNorm_valid_facts {n : List Char} {allowed : List String} {r : ValidationResult}
    (hr : validateNorm n allowed = r) (h : r.valid = true) :
    r.normalized = some (String.mk n) ∧ n ≠ [] ∧
      ∃ p ∈ allowed, (upperL p.data).isPrefixOf (upperL n) = true := by
  unfold validateNorm at hr
  split at hr
  · subst hr; simp at h
  · split at hr
    · subst hr; simp at h
    · split at hr
      · subst hr; simp at h
      · split at hr
        · subst hr; simp at h
        · next hlen0 _ hpre _ _ =>
          split at hr
          · subst hr; simp at h
          · split at hr
            · subst hr; simp at h
            · subst hr
              refine ⟨rfl, fun hnil => hlen0 (by simp [hnil]), ?_⟩
              have hany : (allowed.any fun p => p.data.isPrefixOf (upperL n)) = true := by
                cases hval : allowed.any fun p => p.data.isPrefixOf (upperL n)
                · exact absurd (by simp [hval]) hpre
                · rfl
              obtain ⟨p, hp, hpp⟩ := List.any_eq_true.mp hany
              exact ⟨p, hp, upper_pre_of_pre hpp⟩

theorem validateNorm_invalid_normalized {n : List Char} {allowed : List String}
    {r : ValidationResult} (hr : validateNorm n allowed = r) (h : r.valid = false) :
    r.normalized = none := by
  unfold validateNorm at hr
  split at hr
  · subst hr; rfl
  · split at hr
    · subst hr; rfl
    · split at hr
      · subst hr; rfl
      · split at hr
        · subst hr; rfl
        · split at hr
          · subst hr; rfl
          · split at hr
            · subst hr; rfl
            · subst hr; simp at h

/-- **C1.** Whenever `validateQuery` accepts, the returned `normalized`
statement is present, non-empty, equal to the trimmed/whitespace-collapsed
input, of collapsed shape, and its uppercase image starts with the uppercase
image of one of the configured allowed statement keywords (a case-insensitive
prefix match); whenever it rejects, `normalized` is absent. -/
theorem validateQuery_outcome_invariant (sql : String) (allowed : List String) :
    ((validateQuery sql allowed).valid = true →
      ∃ n : String, (validateQuery sql allowed).normalized = some n ∧
        n.data = normalizeSQL sql ∧ n ≠ "" ∧ isCollapsed n.data = true ∧
        ∃ p ∈ allowed, (upperL p.data).isPrefixOf (upperL n.data) = true) ∧
    ((validateQuery sql allowed).valid = false →
      (validateQuery sql allowed).normalized = none) := by
  constructor
  · intro h
    unfold validateQuery at h ⊢
    by_cases hemp : sql.data.isEmpty = true
    · rw [if_pos hemp] at h
      simp at h
    · rw [if_neg hemp] at h ⊢
      obtain ⟨hnorm, hnil, p, hp, hpp⟩ := validateNorm_valid_facts rfl h
      refine ⟨String.mk (normalizeSQL sql), hnorm, rfl, ?_, isCollapsed_normalizeSQL sql,
        p, hp, hpp⟩
      intro hEq
      exact hnil (by simpa using congrArg String.data hEq)
  · intro h
    unfold validateQuery at h ⊢
    by_cases hemp : sql.data.isEmpty = true
    · rw [if_pos hemp]
    · rw [if_neg hemp] at h ⊢
      exact validateNorm_invalid_normalized rfl h

/-- Witness for C1 at a concrete accepted input. -/
theorem validateQuery_outcome_invariant_witness :
    ∃ n : String, (validateQuery "SELECT 1" ALLOWED_PREFIXES).normalized = some n ∧
      n.data = normalizeSQL "SELECT 1" ∧ n ≠ "" ∧ isCollapsed n.data = true ∧
      ∃ p ∈ ALLOWED_PREFIXES, (upperL p.data).isPrefixOf (upperL n.data) = true :=
  (validateQuery_outcome_invariant "SELECT 1" ALLOWED_PREFIXES).1 (by decide)

/-! ### Claim C2: blocked keywords force rejection -/

theorem validateNorm_blocked {n : List Char} {allowed : List String} {kw : String}
    (hkw : kw ∈ BLOCKED_KEYWORDS) (hocc : occursAsWord kw.data (upperL n) = true) :
    (validateNorm n allowed).valid = false := by
  unfold validateNorm
  split
  · rfl
  · split
    · rfl
    · split
      · rfl
      · split
        · rfl
        · next hnone =>
          have hfalse := List.find?_eq_none.mp hnone kw hkw
          simp only [hocc, not_true] at hfalse

/-- **C2.** Any statement whose normalized uppercase form contains a blocked
keyword as a standalone word (`\b`-delimited, the form the validator checks
after trimming and collapsing whitespace) is rejected, for every allowed-prefix
set supplied. -/
theorem validateQuery_blocked_keyword (sql : String) (allowed : List String) (kw : String)
    (hkw : kw ∈ BLOCKED_KEYWORDS)
    (hocc : occursAsWord kw.data (upperL (normalizeSQL sql)) = true) :
    (validateQuery sql allowed).valid = false := by
  unfold validateQuery
  split
  · rfl
  · exact validateNorm_blocked hkw hocc

/-- Witness for C2: the spec's own example, with the `DROP` keyword. -/
theorem validateQuery_blocked_keyword_witness :
    (validateQuery "SELECT * FROM t; DROP TABLE t" ALLOWED_PREFIXES).valid = false :=
  validateQuery_blocked_keyword "SELECT * FROM t; DROP TABLE t" ALLOWED_PREFIXES "DROP"
    (by decide) (by decide)

/-! ### Claim C5: the length guard inspects the normalized statement -/

theorem collapseWS_of_nonws {l : List Char} (h : ∀ c ∈ l, jsIsWS c = false) :
    collapseWS l = l := by
  induction l using collapseWS.induct with
  | case1 => rfl
  | case2 d hd => exact absurd (h d (by simp)) (by simp [hd])
  | case3 d hd => simp [collapseWS, if_neg hd]
  | case4 a b rest hab ih =>
    have ha : jsIsWS a = true := by
      cases hval : jsIsWS a
      · rw [hval] at hab; simp at hab
      · rfl
    exact absurd (h a (by simp)) (by simp [ha])
  | case5 a b rest hab ih =>
    have hstep : collapseWS (a :: b :: rest) =
        (if jsIsWS a then ' ' else a) :: collapseWS (b :: rest) := by
      simp [collapseWS, hab]
    rw [hstep, if_neg (by simp [h a (by simp)]), ih fun c hc => h c (List.mem_cons_of_mem a hc)]

theorem trimWS_replicate {c : Char} (hc : jsIsWS c = false) (n : Nat) :
    trimWS (List.replicate n c) = List.replicate n c := by
  unfold trimWS
  rw [List.dropWhile_replicate, if_neg (by simp [hc]), List.reverse_replicate,
    List.dropWhile_replicate, if_neg (by simp [hc]), List.reverse_replicate]

/-- **C5 (amended).** The denial-of-service guard applies to the *normalized*
statement: whenever the trimmed, whitespace-collapsed statement is longer than
100,000 characters, `validateQuery` rejects. -/
theorem validateQuery_normalized_length_guard (sql : String) (allowed : List String)
    (h : 100000 < (normalizeSQL sql).length) :
    (validateQuery sql allowed).valid = false := by
  unfold validateQuery
  split
  · rfl
  · rw [validateNorm, if_neg (by omega : ¬(normalizeSQL sql).length = 0), if_pos h]

/-- Witness for the amended C5: 100,001 letters stay 100,001 characters after
normalization and are rejected. -/
theorem validateQuery_normalized_length_guard_witness :
    (validateQuery (String.mk (List.replicate 100001 'a')) ALLOWED_PREFIXES).valid = false :=
  validateQuery_normalized_length_guard (String.mk (List.replicate 100001 'a')) ALLOWED_PREFIXES
    (by
      unfold normalizeSQL
      rw [show (String.mk (List.replicate 100001 'a')).data = List.replicate 100001 'a' from rfl,
        trimWS_replicate (by decide),
        collapseWS_of_nonws fun c hc => by rw [(List.mem_replicate.mp hc).2]; decide,
        List.length_replicate]
      omega)

/-- A `SELECT` padded with 99,993 trailing spaces: 100,001 characters of raw
input, 8 characters once normalized. -/
def padSelect : String := String.mk ("SELECT 1".data ++ List.replicate 99993 ' ')

theorem normalizeSQL_padSelect : normalizeSQL padSelect = "SELECT 1".data := by
  unfold normalizeSQL
  rw [show padSelect.data = "SELECT 1".data ++ List.replicate 99993 ' ' from rfl]
  unfold trimWS
  rw [List.dropWhile_append,
    show List.dropWhile jsIsWS "SELECT 1".data = "SELECT 1".data from by decide,
    if_neg (by decide), List.reverse_append, List.reverse_replicate,
    List.dropWhile_append_of_pos (by
      intro a ha
      rw [(List.mem_replicate.mp ha).2]
      decide),
    show List.dropWhile jsIsWS ("SELECT 1".data).reverse = ("SELECT 1".data).reverse from by
      decide,
    List.reverse_reverse,
    show collapseWS "SELECT 1".data = "SELECT 1".data from by decide]

/-- **C5 counterexample.** An input longer than 100,000 characters that
`validateQuery` nevertheless accepts — the guard measures the normalized
statement, not the raw input. -/
theorem validateQuery_length_guard_counterexample :
    100000 < padSelect.length ∧ (validateQuery padSelect).valid = true := by
  constructor
  · show 100000 < ("SELECT 1".data ++ List.replicate 99993 ' ').length
    rw [List.length_append, List.length_replicate]
    decide
  · unfold validateQuery
    rw [if_neg (by decide), normalizeSQL_padSelect]
    decide

/-! ## The identifier guard (`identifier-validator`, `src/unnamed/part_004`) -/

/-- First character of `^[a-zA-Z_][a-zA-Z0-9_]*$`. -/
def isIdentStart (c : Char) : Bool := c.isAlpha || c = '_'

/-- Continuation characters of the identifier grammar. -/
def isIdentChar (c : Char) : Bool := c.isAlpha || c.isDigit || c = '_'

/-- `VALID_IDENTIFIER.test name`. -/
def validIdent : List Char → Bool
  | [] => false
  | c :: rest => isIdentStart c && rest.all isIdentChar

/-- `RESERVED_KEYWORDS` from the identifier validator. -/
def RESERVED_KEYWORDS : List String :=
  ["SELECT", "INSERT", "UPDATE", "DELETE", "DROP", "ALTER", "CREATE", "TABLE",
   "DATABASE", "INDEX", "VIEW", "TRIGGER", "FUNCTION", "FROM", "WHERE", "AND",
   "OR", "NOT", "NULL", "TRUE", "FALSE", "JOIN", "LEFT", "RIGHT", "INNER",
   "OUTER", "ON", "AS", "ORDER", "BY", "GROUP", "HAVING", "LIMIT", "OFFSET",
   "UNION", "INTERSECT", "EXCEPT", "ALL", "DISTINCT", "GRANT", "REVOKE",
   "EXECUTE", "TRUNCATE"]

/-- `IdentifierValidation` from the identifier validator. -/
structure IdentifierValidation where
  valid : Bool
  error : Option String := none
  sanitized : Option String := none
deriving DecidableEq, Repr

/-- `validateIdentifier`.  The reserved-keyword branch of the source returns
the same accepting outcome as the fall-through (the comment there says
"we still allow it but it will be quoted"); the branch is kept to mirror the
control flow. -/
def validateIdentifier (identifier : String) (kind : String := "table") :
    IdentifierValidation :=
  if identifier.data.isEmpty then
    ⟨false, some (kind ++ " name must be a non-empty string"), none⟩
  else if (trimWS identifier.data).length = 0 then
    ⟨false, some (kind ++ " name cannot be empty"), none⟩
  else if 63 < (trimWS identifier.data).length then
    ⟨false, some (kind ++ " name too long (max 63 characters)"), none⟩
  else if !(validIdent (trimWS identifier.data)) then
    ⟨false,
      some ("Invalid " ++ kind ++ " name \"" ++ String.mk (trimWS identifier.data)
        ++ "\". Only letters, numbers, and underscores allowed. Must start with a letter or underscore."),
      none⟩
  else if RESERVED_KEYWORDS.contains (String.mk (upperL (trimWS identifier.data))) then
    ⟨true, none, some (String.mk (trimWS identifier.data))⟩
  else ⟨true, none, some (String.mk (trimWS identifier.data))⟩

/-- `quoteIdentifier`'s quote-doubling: `identifier.replace(/"/g, '""')`. -/
def escQuotes : List Char → List Char
  | [] => []
  | c :: rest => if c = '"' then '"' :: '"' :: escQuotes rest else c :: escQuotes rest

/-- `quoteIdentifier` from the identifier validator: double embedded quotes,
wrap in double quotes. -/
def quoteIdentifier (identifier : String) : String :=
  String.mk ('"' :: escQuotes identifier.data ++ ['"'])

example : quoteIdentifier "users" = "\"users\"" := by decide
example : (validateIdentifier "users").sanitized = some "users" := by decide
example : (validateIdentifier "user-name").valid = false := by decide
example : (validateIdentifier "SELECT").valid = true := by decide

/-! ### Claim C8: quoting is not idempotent, but is safe on sanitized names -/

/-- **C8 counterexample.** Quoting twice is not the same as quoting once:
each application doubles the quotes introduced by the previous one. -/
theorem quoteIdentifier_not_idempotent :
    quoteIdentifier (quoteIdentifier "a") ≠ quoteIdentifier "a" := by decide

theorem escQuotes_of_no_quote {l : List Char} (h : ∀ c ∈ l, c ≠ '"') :
    escQuotes l = l := by
  induction l with
  | nil => rfl
  | cons c rest ih =>
    unfold escQuotes
    rw [if_neg (h c (by simp)), ih fun d hd => h d (List.mem_cons_of_mem c hd)]

theorem identStart_ne_quote {c : Char} (h : isIdentStart c = true) : c ≠ '"' := by
  intro hEq
  subst hEq
  exact absurd h (by decide)

theorem identChar_ne_quote {c : Char} (h : isIdentChar c = true) : c ≠ '"' := by
  intro hEq
  subst hEq
  exact absurd h (by decide)

theorem validIdent_no_quote {l : List Char} (h : validIdent l = true) :
    ∀ c ∈ l, c ≠ '"' := by
  cases l with
  | nil => intro c hc; simp at hc
  | cons a rest =>
    unfold validIdent at h
    obtain ⟨ha, hrest⟩ : isIdentStart a = true ∧ rest.all isIdentChar = true := by
      simpa using h
    intro c hc
    rcases List.mem_cons.mp hc with hval | hval
    · exact hval ▸ identStart_ne_quote ha
    · exact identChar_ne_quote (List.all_eq_true.mp hrest c hval)

/-- **C8 (amended).** Whenever the identifier validator accepts, the sanitized
name matches the identifier grammar, hence contains no double-quote character,
and `quoteIdentifier` applied to it merely wraps it in double quotes (the
quote-doubling step is the identity on it).  Quoting is *not* idempotent on its
own output (see the counterexample): re-quoting doubles the quotes again. -/
theorem quoteIdentifier_on_sanitized (name kind : String)
    (h : (validateIdentifier name kind).valid = true) :
    ∃ s : String, (validateIdentifier name kind).sanitized = some s ∧
      (∀ c ∈ s.data, c ≠ '"') ∧
      quoteIdentifier s = String.mk ('"' :: (s.data ++ ['"'])) := by
  unfold validateIdentifier at h ⊢
  by_cases h1 : name.data.isEmpty = true
  · rw [if_pos h1] at h
    simp at h
  · rw [if_neg h1] at h ⊢
    by_cases h2 : (trimWS name.data).length = 0
    · rw [if_pos h2] at h
      simp at h
    · rw [if_neg h2] at h ⊢
      by_cases h3 : 63 < (trimWS name.data).length
      · rw [if_pos h3] at h
        simp at h
      · rw [if_neg h3] at h ⊢
        by_cases h4 : (!validIdent (trimWS name.data)) = true
        · rw [if_pos h4] at h
          simp at h
        · rw [if_neg h4] at h ⊢
          have hv : validIdent (trimWS name.data) = true := by
            cases hval : validIdent (trimWS name.data)
            · exact absurd (by simp [hval]) h4
            · rfl
          have hnq : ∀ c ∈ trimWS name.data, c ≠ '"' := validIdent_no_quote hv
          have hq : quoteIdentifier (String.mk (trimWS name.data)) =
              String.mk ('"' :: (trimWS name.data ++ ['"'])) := by
            unfold quoteIdentifier
            rw [show (String.mk (trimWS name.data)).data = trimWS name.data from rfl,
              escQuotes_of_no_quote hnq]
            rfl
          by_cases h5 :
              RESERVED_KEYWORDS.contains (String.mk (upperL (trimWS name.data))) = true
          · rw [if_pos h5]
            exact ⟨String.mk (trimWS name.data), rfl, hnq, hq⟩
          · rw [if_neg h5]
            exact ⟨String.mk (trimWS name.data), rfl, hnq, hq⟩

/-- Witness for the amended C8 at the concrete identifier `users`. -/
theorem quoteIdentifier_on_sanitized_witness :
    ∃ s : String, (validateIdentifier "users" "table").sanitized = some s ∧
      (∀ c ∈ s.data, c ≠ '"') ∧
      quoteIdentifier s = String.mk ('"' :: (s.data ++ ['"'])) :=
  quoteIdentifier_on_sanitized "users" "table" (by decide)

/-! ## `enforceLimit` (the LimitRewriter)

The source matches `/LIMIT\s+(\d+)/` against the uppercased statement and, to
clamp, replaces the first `/LIMIT\s+\d+/i` match in the original-case
statement.  Both are the same leftmost case-insensitive match (uppercasing is
a character-wise, length-preserving map that fixes whitespace and digits), so
the embedding uses one case-insensitive scanner `findLimitTok` that returns
the parsed numeric argument together with the text remaining after the match;
`replaceLimitTok` rewrites that same leftmost match in place.
-/

/-- JavaScript regex `\d` class: `[0-9]`. -/
def isDigitCh (c : Char) : Bool := 48 ≤ c.toNat && c.toNat ≤ 57

/-- Fueled digit printer (structural recursion, so it reduces in the kernel);
any `fuel > n` gives the decimal digits of `n`. -/
def natDigitsAux : Nat → Nat → List Char
  | 0, _ => []
  | fuel + 1, n =>
    if n < 10 then [Char.ofNat (48 + n)]
    else natDigitsAux fuel (n / 10) ++ [Char.ofNat (48 + n % 10)]

/-- Decimal rendering of a natural number — the model of the template
interpolation `LIMIT ${maxLimit}`. -/
def natDigits (n : Nat) : List Char := natDigitsAux (n + 1) n

/-- `parseInt(ds, 10)` on a run of decimal digits. -/
def digitsToNat (ds : List Char) : Nat :=
  ds.foldl (fun a c => a * 10 + (c.toNat - 48)) 0

/-- Case-insensitive prefix test (the pattern `w` is uppercase). -/
def isCIPrefix (w : String) (l : List Char) : Bool := w.data.isPrefixOf (upperL l)

/-- `LIMIT\s+(\d+)` anchored at the head of `l`: on success, the parsed value
of the (maximal) digit run and the text after the match.  `\s+` is greedy and
`\s`/`\d` are disjoint, so the digits start after the whole whitespace run. -/
def limitTokAt (l : List Char) : Option (Nat × List Char) :=
  if isCIPrefix "LIMIT" l then
    match l.drop 5 with
    | c :: rest =>
      if jsIsWS c then
        if ((rest.dropWhile jsIsWS).takeWhile isDigitCh).isEmpty then none
        else some (digitsToNat ((rest.dropWhile jsIsWS).takeWhile isDigitCh),
          (rest.dropWhile jsIsWS).dropWhile isDigitCh)
      else none
    | [] => none
  else none

/-- The leftmost `LIMIT\s+(\d+)` match (the semantics of `match`/`replace` on
a regex without `g`). -/
def findLimitTok : List Char → Option (Nat × List Char)
  | [] => none
  | c :: rest =>
    match limitTokAt (c :: rest) with
    | some r => some r
    | none => findLimitTok rest

/-- `normalized.replace(/LIMIT\s+\d+/i, "LIMIT " ++ m)`: rewrite the leftmost
match, keep everything else. -/
def replaceLimitTok (l : List Char) (m : Nat) : List Char :=
  match l with
  | [] => []
  | c :: rest =>
    match limitTokAt (c :: rest) with
    | some (_, rem) => "LIMIT ".data ++ natDigits m ++ rem
    | none => c :: replaceLimitTok rest m

/-- `replace(/;$/, '')`: drop one trailing semicolon. -/
def stripSemi (l : List Char) : List Char :=
  if l.getLast? = some ';' then l.dropLast else l

/-- The body of `enforceLimit` on the trimmed statement. -/
def enforceNorm (n : List Char) (maxLimit : Nat) : List Char :=
  if containsSub " LIMIT ".data (upperL n) then
    match findLimitTok n with
    | some (k, _) => if maxLimit < k then replaceLimitTok n maxLimit else n
    | none => n
  else if "EXPLAIN".data.isPrefixOf (upperL n) then n
  else if "SHOW".data.isPrefixOf (upperL n) then n
  else if "WITH".data.isPrefixOf (upperL n) then
    stripSemi n ++ " LIMIT ".data ++ natDigits maxLimit
  else stripSemi n ++ " LIMIT ".data ++ natDigits maxLimit

/-- `enforceLimit` from `sql-validator.ts`. -/
def enforceLimit (sql : String) (maxLimit : Nat) : String :=
  String.mk (enforceNorm (trimWS sql.data) maxLimit)

example : enforceLimit "SELECT * FROM t" 100 = "SELECT * FROM t LIMIT 100" := by decide
example : enforceLimit "SELECT * FROM t;" 10 = "SELECT * FROM t LIMIT 10" := by decide
example : enforceLimit "SELECT * FROM t LIMIT 50000" 1000 = "SELECT * FROM t LIMIT 1000" := by
  decide
example : enforceLimit "SELECT * FROM t LIMIT 5" 1000 = "SELECT * FROM t LIMIT 5" := by decide
example : enforceLimit "EXPLAIN SELECT 1" 10 = "EXPLAIN SELECT 1" := by decide
example : enforceLimit "SHOW server_version" 10 = "SHOW server_version" := by decide
example : enforceLimit "WITH recent AS (SELECT * FROM orders) SELECT * FROM recent" 100
    = "WITH recent AS (SELECT * FROM orders) SELECT * FROM recent LIMIT 100" := by decide
example : enforceLimit "SELECT * FROM t LIMIT ALL" 7 = "SELECT * FROM t LIMIT ALL" := by decide

/-! ### Claim C10: a LIMIT keyword without a numeric argument is left alone -/

/-- **C10.** If the trimmed statement contains `" LIMIT "` (so the rewriter
takes the already-has-LIMIT branch) but no `LIMIT <digits>` token matches
anywhere, `enforceLimit` returns the trimmed statement unchanged for every
`maxLimit`. -/
theorem enforceLimit_no_numeric_limit (sql : String) (maxLimit : Nat)
    (hinc : containsSub " LIMIT ".data (upperL (trimWS sql.data)) = true)
    (hnone : findLimitTok (trimWS sql.data) = none) :
    enforceLimit sql maxLimit = String.mk (trimWS sql.data) := by
  unfold enforceLimit enforceNorm
  rw [if_pos hinc, hnone]

/-- Witness for C10: `LIMIT ALL` carries no digits, so nothing is clamped or
appended. -/
theorem enforceLimit_no_numeric_limit_witness :
    enforceLimit "SELECT * FROM t LIMIT ALL" 7
      = String.mk (trimWS "SELECT * FROM t LIMIT ALL".data) :=
  enforceLimit_no_numeric_limit "SELECT * FROM t LIMIT ALL" 7 (by decide) (by decide)

/-! ### Claim C6: idempotence of the rewriter -/

/-- **C6 counterexample.**  A validator-accepted statement on which
`enforceLimit` is *not* idempotent: the statement contains the text
`LIMIT 99` (not preceded by a space, so the already-has-LIMIT branch is not
taken), a `LIMIT 10` is appended, and the second application then clamps the
embedded `LIMIT 99` text. -/
theorem enforceLimit_not_idempotent_on_accepted :
    (validateQuery "SELECT (LIMIT 99)").valid = true ∧
      enforceLimit (enforceLimit "SELECT (LIMIT 99)" 10) 10
        ≠ enforceLimit "SELECT (LIMIT 99)" 10 := by
  constructor
  · decide
  · decide

/-! ### Character-class facts -/

theorem ws_toNat {c : Char} (h : jsIsWS c = true) :
    c.toNat = 32 ∨ c.toNat = 9 ∨ c.toNat = 10 ∨ c.toNat = 13 ∨ c.toNat = 11 ∨
      c.toNat = 12 ∨ c.toNat = 160 := by
  unfold jsIsWS at h
  simp only [Bool.or_eq_true, decide_eq_true_eq] at h
  rcases h with ((((((h | h) | h) | h) | h) | h) | h) <;> subst h <;> decide

theorem digit_toNat {c : Char} (h : isDigitCh c = true) :
    48 ≤ c.toNat ∧ c.toNat ≤ 57 := by
  unfold isDigitCh at h
  simpa using h

theorem ws_of_digit_false {c : Char} (h : isDigitCh c = true) : jsIsWS c = false := by
  cases hw : jsIsWS c
  · rfl
  · have h1 := ws_toNat hw
    have h2 := digit_toNat h
    omega

theorem toUpper_eq_self_of_toNat {c : Char} (h : ¬(97 ≤ c.toNat ∧ c.toNat ≤ 122)) :
    c.toUpper = c := by
  unfold Char.toUpper
  rw [if_neg (by omega)]

theorem toUpper_ws_id {c : Char} (h : jsIsWS c = true) : c.toUpper = c :=
  toUpper_eq_self_of_toNat (by have := ws_toNat h; omega)

theorem toUpper_digit_id {c : Char} (h : isDigitCh c = true) : c.toUpper = c :=
  toUpper_eq_self_of_toNat (by have := digit_toNat h; omega)

theorem upperL_id_of {l : List Char} (h : ∀ c ∈ l, Char.toUpper c = c) :
    upperL l = l :=
  (List.map_congr_left h).trans (List.map_id l)

theorem of_toUpper_L {c : Char} (h : c.toUpper = 'L') :
    c.toNat = 76 ∨ c.toNat = 108 := by
  unfold Char.toUpper at h
  by_cases hc : 97 ≤ c.toNat ∧ c.toNat ≤ 122
  · rw [if_pos (by omega)] at h
    have h2 := congrArg Char.toNat h
    rw [char_toNat_ofNat (by omega), show Char.toNat 'L' = 76 from rfl] at h2
    right
    omega
  · rw [if_neg (by omega)] at h
    subst h
    left
    rfl

theorem ws_of_upper_L_false {c : Char} (h : c.toUpper = 'L') : jsIsWS c = false := by
  cases hw : jsIsWS c
  · rfl
  · have h1 := ws_toNat hw
    have h2 := of_toUpper_L h
    omega

theorem digit_of_upper_L_false {c : Char} (h : c.toUpper = 'L') : isDigitCh c = false := by
  cases hd : isDigitCh c
  · rfl
  · have h1 := digit_toNat (by exact hd)
    have h2 := of_toUpper_L h
    omega

/-! ### The digit printer round-trips through `parseInt` -/

theorem natDigitsAux_spec :
    ∀ fuel n, n < fuel →
      digitsToNat (natDigitsAux fuel n) = n ∧ natDigitsAux fuel n ≠ [] ∧
        ∀ c ∈ natDigitsAux fuel n, isDigitCh c = true := by
  intro fuel
  induction fuel with
  | zero => omega
  | succ fuel ih =>
    intro n hn
    unfold natDigitsAux
    by_cases h10 : n < 10
    · rw [if_pos h10]
      have htn : (Char.ofNat (48 + n)).toNat = 48 + n := char_toNat_ofNat (by omega)
      refine ⟨?_, by simp, ?_⟩
      · simp [digitsToNat, htn]
      · intro c hc
        rw [List.mem_singleton] at hc
        subst hc
        unfold isDigitCh
        rw [htn]
        simp
        omega
    · rw [if_neg h10]
      obtain ⟨ihv, ihne, ihdig⟩ := ih (n / 10) (by omega)
      have htn : (Char.ofNat (48 + n % 10)).toNat = 48 + n % 10 :=
        char_toNat_ofNat (by omega)
      refine ⟨?_, by simp, ?_⟩
      · unfold digitsToNat at ihv ⊢
        rw [List.foldl_append]
        simp only [List.foldl_cons, List.foldl_nil]
        rw [ihv, htn]
        omega
      · intro c hc
        rcases List.mem_append.mp hc with hc | hc
        · exact ihdig c hc
        · rw [List.mem_singleton] at hc
          subst hc
          unfold isDigitCh
          rw [htn]
          simp
          omega

theorem digitsToNat_natDigits (n : Nat) : digitsToNat (natDigits n) = n :=
  (natDigitsAux_spec (n + 1) n (by omega)).1

theorem natDigits_ne_nil (n : Nat) : natDigits n ≠ [] :=
  (natDigitsAux_spec (n + 1) n (by omega)).2.1

theorem natDigits_all_digit (n : Nat) : ∀ c ∈ natDigits n, isDigitCh c = true :=
  (natDigitsAux_spec (n + 1) n (by omega)).2.2

/-! ### Trimmedness -/

theorem trimWS_eq_self {l : List Char}
    (hh : ∀ c, l.head? = some c → jsIsWS c = false)
    (hl : ∀ c, l.getLast? = some c → jsIsWS c = false) : trimWS l = l := by
  unfold trimWS
  have h1 : l.dropWhile jsIsWS = l := by
    cases l with
    | nil => rfl
    | cons a t => exact List.dropWhile_cons_of_neg (by simp [hh a rfl])
  rw [h1]
  have h2 : l.reverse.dropWhile jsIsWS = l.reverse := by
    cases hrev : l.reverse with
    | nil => rfl
    | cons a t =>
      have ha : l.getLast? = some a := by
        rw [List.getLast?_eq_head?_reverse, hrev]
        rfl
      rw [← hrev]
      rw [hrev]
      exact List.dropWhile_cons_of_neg (by simp [hl a ha])
  rw [h2, List.reverse_reverse]

theorem trimWS_idem (l : List Char) : trimWS (trimWS l) = trimWS l :=
  trimWS_eq_self (fun _ hc => trimWS_head? hc) (fun _ hc => trimWS_getLast? hc)

/-! ### Scanning across an unchanged prefix -/

theorem dropWhile_ws_append {b r : List Char}
    (hr : ∀ c, r.head? = some c → jsIsWS c = false) :
    (b ++ r).dropWhile jsIsWS = b.dropWhile jsIsWS ++ r := by
  induction b with
  | nil =>
    simp only [List.nil_append, List.dropWhile_nil]
    cases r with
    | nil => rfl
    | cons a t => exact List.dropWhile_cons_of_neg (by simp [hr a rfl])
  | cons x xs ih =>
    by_cases hx : jsIsWS x = true
    · rw [List.cons_append, List.dropWhile_cons_of_pos hx, List.dropWhile_cons_of_pos hx, ih]
    · rw [List.cons_append, List.dropWhile_cons_of_neg (by simp [hx]),
        List.dropWhile_cons_of_neg (by simp [hx]), List.cons_append]

theorem takeWhile_digit_append {b r : List Char}
    (hr : ∀ c, r.head? = some c → isDigitCh c = false) :
    (b ++ r).takeWhile isDigitCh = b.takeWhile isDigitCh := by
  induction b with
  | nil =>
    simp only [List.nil_append, List.takeWhile_nil]
    cases r with
    | nil => rfl
    | cons a t => exact List.takeWhile_cons_of_neg (by simp [hr a rfl])
  | cons x xs ih =>
    by_cases hx : isDigitCh x = true
    · rw [List.cons_append, List.takeWhile_cons_of_pos hx, List.takeWhile_cons_of_pos hx, ih]
    · rw [List.cons_append, List.takeWhile_cons_of_neg (by simp [hx]),
        List.takeWhile_cons_of_neg (by simp [hx])]

theorem dropWhile_digit_append {b r : List Char}
    (hr : ∀ c, r.head? = some c → isDigitCh c = false) :
    (b ++ r).dropWhile isDigitCh = b.dropWhile isDigitCh ++ r := by
  induction b with
  | nil =>
    simp only [List.nil_append, List.dropWhile_nil]
    cases r with
    | nil => rfl
    | cons a t => exact List.dropWhile_cons_of_neg (by simp [hr a rfl])
  | cons x xs ih =>
    by_cases hx : isDigitCh x = true
    · rw [List.cons_append, List.dropWhile_cons_of_pos hx, List.dropWhile_cons_of_pos hx, ih]
    · rw [List.cons_append, List.dropWhile_cons_of_neg (by simp [hx]),
        List.dropWhile_cons_of_neg (by simp [hx]), List.cons_append]

/-! ### Shape of a `LIMIT <digits>` match -/

theorem limitTokAt_decomp {l : List Char} {k : Nat} {rem : List Char}
    (h : limitTokAt l = some (k, rem)) :
    ∃ five w wsr ds, l = five ++ w :: (wsr ++ (ds ++ rem)) ∧
      upperL five = "LIMIT".data ∧ jsIsWS w = true ∧ (∀ c ∈ wsr, jsIsWS c = true) ∧
      ds ≠ [] ∧ (∀ c ∈ ds, isDigitCh c = true) ∧ k = digitsToNat ds ∧
      (∀ c, rem.head? = some c → isDigitCh c = false) := by
  unfold limitTokAt at h
  by_cases hci : isCIPrefix "LIMIT" l = true
  · rw [if_pos hci] at h
    cases hdrop : l.drop 5 with
    | nil =>
      rw [hdrop] at h
      exact absurd h (by simp)
    | cons c rest =>
      rw [hdrop] at h
      dsimp only at h
      by_cases hws : jsIsWS c = true
      · rw [if_pos hws] at h
        by_cases hemp : ((rest.dropWhile jsIsWS).takeWhile isDigitCh).isEmpty = true
        · rw [if_pos hemp] at h
          exact absurd h (by simp)
        · rw [if_neg hemp] at h
          obtain ⟨hk, hrem⟩ : digitsToNat ((rest.dropWhile jsIsWS).takeWhile isDigitCh) = k ∧
              (rest.dropWhile jsIsWS).dropWhile isDigitCh = rem := by
            have := Option.some.inj h
            exact ⟨congrArg Prod.fst this, congrArg Prod.snd this⟩
          refine ⟨l.take 5, c, rest.takeWhile jsIsWS,
            (rest.dropWhile jsIsWS).takeWhile isDigitCh, ?_, ?_, hws,
            fun d hd => List.mem_takeWhile_imp hd, ?_,
            fun d hd => List.mem_takeWhile_imp hd, hk.symm, ?_⟩
          · conv_lhs => rw [← List.take_append_drop 5 l]
            rw [hdrop]
            congr 1
            congr 1
            conv_lhs => rw [← List.takeWhile_append_dropWhile (p := jsIsWS) (l := rest)]
            congr 1
            conv_lhs =>
              rw [← List.takeWhile_append_dropWhile (p := isDigitCh)
                (l := rest.dropWhile jsIsWS)]
            rw [hrem]
          · unfold isCIPrefix at hci
            rw [List.isPrefixOf_iff_prefix] at hci
            have htake := List.prefix_iff_eq_take.mp hci
            have hlen : ("LIMIT".data).length = 5 := rfl
            rw [hlen] at htake
            rw [show upperL (l.take 5) = (upperL l).take 5 from List.map_take Char.toUpper l 5,
              ← htake]
          · intro hnil
            rw [hnil] at hemp
            exact hemp rfl
          · intro d hd
            have := List.head?_dropWhile_not isDigitCh (rest.dropWhile jsIsWS)
            rw [hrem, hd] at this
            exact this
      · rw [if_neg hws] at h
        exact absurd h (by simp)
  · rw [if_neg hci] at h
    exact absurd h (by simp)

theorem limitTokAt_head {l : List Char} {x : Nat × List Char}
    (h : limitTokAt l = some x) : ∃ c t, l = c :: t ∧ Char.toUpper c = 'L' := by
  unfold limitTokAt at h
  by_cases hci : isCIPrefix "LIMIT" l = true
  · cases l with
    | nil =>
      unfold isCIPrefix at hci
      simp [upperL] at hci
    | cons c t =>
      refine ⟨c, t, rfl, ?_⟩
      unfold isCIPrefix at hci
      rw [List.isPrefixOf_iff_prefix] at hci
      obtain ⟨s, hs⟩ := hci
      have hhead := congrArg List.head? hs
      simp only [upperL, List.map_cons] at hhead
      have : some 'L' = some (Char.toUpper c) := hhead
      exact (Option.some.inj this).symm
  · rw [if_neg hci] at h
    exact absurd h (by simp)

theorem limitTokAt_replacement (m : Nat) {rem : List Char}
    (hrem : ∀ c, rem.head? = some c → isDigitCh c = false) :
    limitTokAt ("LIMIT ".data ++ (natDigits m ++ rem)) = some (m, rem) := by
  have hdw : (natDigits m ++ rem).dropWhile jsIsWS = natDigits m ++ rem := by
    cases hnd : natDigits m with
    | nil => exact absurd hnd (natDigits_ne_nil m)
    | cons d ds' =>
      rw [List.cons_append]
      refine List.dropWhile_cons_of_neg ?_
      have hd : isDigitCh d = true := natDigits_all_digit m d (by rw [hnd]; simp)
      simp [ws_of_digit_false hd]
  have htw : (natDigits m ++ rem).takeWhile isDigitCh = natDigits m := by
    rw [List.takeWhile_append_of_pos (natDigits_all_digit m)]
    cases hr : rem with
    | nil => simp
    | cons a t =>
      rw [List.takeWhile_cons_of_neg (by simp [hrem a (by rw [hr]; rfl)])]
      simp
  have hdd : (natDigits m ++ rem).dropWhile isDigitCh = rem := by
    rw [List.dropWhile_append_of_pos (natDigits_all_digit m)]
    cases hr : rem with
    | nil => rfl
    | cons a t => exact List.dropWhile_cons_of_neg (by simp [hrem a (by rw [hr]; rfl)])
  have hci : isCIPrefix "LIMIT" ("LIMIT ".data ++ (natDigits m ++ rem)) = true := by
    unfold isCIPrefix
    rw [List.isPrefixOf_iff_prefix, upperL, List.map_append,
      show ("LIMIT ".data).map Char.toUpper = "LIMIT ".data from by decide]
    exact ⟨' ' :: (natDigits m ++ rem).map Char.toUpper, rfl⟩
  unfold limitTokAt
  rw [if_pos hci,
    show ("LIMIT ".data ++ (natDigits m ++ rem)).drop 5 = ' ' :: (natDigits m ++ rem) from rfl]
  dsimp only
  rw [if_pos (show jsIsWS ' ' = true by decide), hdw, htw, hdd,
    if_neg (by simp [natDigits_ne_nil m]), digitsToNat_natDigits]

/-! ### Failure of a `LIMIT <digits>` match only depends on the unchanged text

If two texts both start with a (case-insensitive) `L`, then a failed match
at any position strictly before them fails for reasons visible before their
first character, so it also fails when one is swapped for the other. -/

theorem not_ciLIMIT_small {a : List Char} {c : Char} {t : List Char}
    (ha : a ≠ []) (hlen : ¬ 5 ≤ a.length) (hL : Char.toUpper c = 'L') :
    isCIPrefix "LIMIT" (a ++ c :: t) = false := by
  cases hb : isCIPrefix "LIMIT" (a ++ c :: t) with
  | false => rfl
  | true =>
    exfalso
    unfold isCIPrefix at hb
    rw [List.isPrefixOf_iff_prefix, List.prefix_iff_eq_take,
      show ("LIMIT".data).length = 5 from rfl] at hb
    have hL5 := congrArg (fun l => l[a.length]?) hb
    simp only at hL5
    have hlt : a.length < 5 := by omega
    rw [List.getElem?_take_of_lt hlt] at hL5
    have hidx : (upperL (a ++ c :: t))[a.length]? = some 'L' := by
      simp only [upperL, List.map_append]
      rw [List.getElem?_append_right (by simp)]
      simp [hL]
    rw [hidx] at hL5
    have h1 : 1 ≤ a.length := by
      cases a
      · exact absurd rfl ha
      · simp
    have hcase : a.length = 1 ∨ a.length = 2 ∨ a.length = 3 ∨ a.length = 4 := by omega
    rcases hcase with hk | hk | hk | hk <;> rw [hk] at hL5 <;> exact absurd hL5 (by decide)

theorem ciLIMIT_indep {a rN rR : List Char} (hlen : 5 ≤ a.length)
    (h : isCIPrefix "LIMIT" (a ++ rN) = true) : isCIPrefix "LIMIT" (a ++ rR) = true := by
  have hc5 : ∀ (r : List Char), (upperL (a ++ r)).take 5 = (upperL a).take 5 := by
    intro r
    simp only [upperL, List.map_append]
    exact List.take_append_of_le_length (by simpa using hlen)
  unfold isCIPrefix at h ⊢
  rw [List.isPrefixOf_iff_prefix, List.prefix_iff_eq_take,
    show ("LIMIT".data).length = 5 from rfl] at h ⊢
  rw [hc5] at h ⊢
  exact h

theorem limitTokAt_none_transfer {a rN rR : List Char} (ha : a ≠ [])
    (hN : ∃ c t, rN = c :: t ∧ Char.toUpper c = 'L')
    (hR : ∃ c t, rR = c :: t ∧ Char.toUpper c = 'L')
    (h : limitTokAt (a ++ rN) = none) : limitTokAt (a ++ rR) = none := by
  obtain ⟨cN, tN, hrN, hLN⟩ := hN
  obtain ⟨cR, tR, hrR, hLR⟩ := hR
  subst hrN
  subst hrR
  by_cases hlen : 5 ≤ a.length
  · unfold limitTokAt
    by_cases hcR : isCIPrefix "LIMIT" (a ++ cR :: tR) = true
    · rw [if_pos hcR]
      have hcN : isCIPrefix "LIMIT" (a ++ cN :: tN) = true := ciLIMIT_indep hlen hcR
      unfold limitTokAt at h
      rw [if_pos hcN] at h
      rw [List.drop_append_of_le_length hlen] at h ⊢
      cases hb : a.drop 5 with
      | nil =>
        rw [List.nil_append]
        dsimp only
        rw [if_neg (by simp [ws_of_upper_L_false hLR])]
      | cons d b' =>
        rw [hb] at h
        rw [List.cons_append] at h ⊢
        dsimp only at h ⊢
        by_cases hd : jsIsWS d = true
        · rw [if_pos hd] at h ⊢
          rw [dropWhile_ws_append (fun c0 hc0 => by
              rw [show c0 = cN from Option.some.inj hc0.symm]
              exact ws_of_upper_L_false hLN),
            takeWhile_digit_append (fun c0 hc0 => by
              rw [show c0 = cN from Option.some.inj hc0.symm]
              exact digit_of_upper_L_false hLN)] at h
          rw [dropWhile_ws_append (fun c0 hc0 => by
              rw [show c0 = cR from Option.some.inj hc0.symm]
              exact ws_of_upper_L_false hLR),
            takeWhile_digit_append (fun c0 hc0 => by
              rw [show c0 = cR from Option.some.inj hc0.symm]
              exact digit_of_upper_L_false hLR)]
          by_cases hemp : ((b'.dropWhile jsIsWS).takeWhile isDigitCh).isEmpty = true
          · rw [if_pos hemp]
          · rw [if_neg hemp] at h
            exact absurd h (by simp)
        · rw [if_neg hd]
    · rw [if_neg hcR]
  · unfold limitTokAt
    rw [if_neg (by simp [not_ciLIMIT_small ha hlen hLR])]

/-! ### Decomposing the leftmost match and the in-place replacement -/

theorem findLimitTok_decomp {n : List Char} {k : Nat} {rem : List Char}
    (h : findLimitTok n = some (k, rem)) :
    ∃ pre rest, n = pre ++ rest ∧ limitTokAt rest = some (k, rem) ∧
      (∀ p1 p2, pre = p1 ++ p2 → p2 ≠ [] → limitTokAt (p2 ++ rest) = none) ∧
      ∀ m, replaceLimitTok n m = pre ++ ("LIMIT ".data ++ (natDigits m ++ rem)) := by
  induction n with
  | nil => simp [findLimitTok] at h
  | cons c rest0 ih =>
    unfold findLimitTok at h
    cases htok : limitTokAt (c :: rest0) with
    | some r =>
      rw [htok] at h
      have hr : r = (k, rem) := Option.some.inj h
      subst hr
      refine ⟨[], c :: rest0, rfl, htok, ?_, ?_⟩
      · intro p1 p2 hp hne
        exact absurd (List.append_eq_nil.mp hp.symm).2 hne
      · intro m
        unfold replaceLimitTok
        rw [htok]
        simp [List.append_assoc]
    | none =>
      rw [htok] at h
      obtain ⟨pre', rest', he, htok', hnones, hrepl⟩ := ih h
      refine ⟨c :: pre', rest', by rw [List.cons_append, ← he], htok', ?_, ?_⟩
      · intro p1 p2 hp hne
        cases p1 with
        | nil =>
          simp only [List.nil_append] at hp
          rw [← hp, List.cons_append, ← he]
          exact htok
        | cons q p1' =>
          rw [List.cons_append] at hp
          injection hp with hc hp'
          exact hnones p1' p2 hp' hne
      · intro m
        unfold replaceLimitTok
        rw [htok]
        dsimp only
        rw [hrepl m]
        simp

theorem findLimitTok_append {pre r : List Char} {x : Nat × List Char}
    (hnones : ∀ p1 p2, pre = p1 ++ p2 → p2 ≠ [] → limitTokAt (p2 ++ r) = none)
    (hr : limitTokAt r = some x) :
    findLimitTok (pre ++ r) = some x := by
  induction pre with
  | nil =>
    simp only [List.nil_append]
    cases hcr : r with
    | nil =>
      rw [hcr] at hr
      exact absurd hr (by rw [show limitTokAt [] = none from by decide]; simp)
    | cons c t =>
      rw [hcr] at hr
      unfold findLimitTok
      rw [hr]
  | cons c pre' ih =>
    rw [List.cons_append]
    unfold findLimitTok
    have hnone : limitTokAt (c :: (pre' ++ r)) = none := by
      have := hnones [] (c :: pre') rfl (by simp)
      simpa using this
    rw [hnone]
    exact ih fun p1 p2 hp hne => hnones (c :: p1) p2 (by rw [hp, List.cons_append]) hne

/-! ### Substring occurrences -/

theorem containsSub_iff {w l : List Char} :
    containsSub w l = true ↔ ∃ a b, l = a ++ (w ++ b) := by
  induction l with
  | nil =>
    unfold containsSub
    constructor
    · intro h
      have hw : w = [] := by simpa [List.isEmpty_iff] using h
      exact ⟨[], [], by simp [hw]⟩
    · rintro ⟨a, b, hab⟩
      obtain ⟨ha, hwb⟩ := List.append_eq_nil.mp hab.symm
      obtain ⟨hw, hb⟩ := List.append_eq_nil.mp hwb
      simp [hw]
  | cons c rest ih =>
    unfold containsSub
    constructor
    · intro h
      simp only [Bool.or_eq_true] at h
      rcases h with h | h
      · rw [List.isPrefixOf_iff_prefix] at h
        obtain ⟨t, ht⟩ := h
        exact ⟨[], t, by rw [List.nil_append, ht]⟩
      · obtain ⟨a, b, hab⟩ := ih.mp h
        exact ⟨c :: a, b, by rw [hab, List.cons_append]⟩
    · rintro ⟨a, b, hab⟩
      simp only [Bool.or_eq_true]
      cases a with
      | nil =>
        left
        rw [List.isPrefixOf_iff_prefix]
        simp only [List.nil_append] at hab
        exact ⟨b, hab.symm⟩
      | cons a0 a' =>
        right
        rw [List.cons_append] at hab
        injection hab with h1 h2
        exact ih.mpr ⟨a', b, h2⟩

theorem containsSub_append_right {w X Y : List Char} (h : containsSub w Y = true) :
    containsSub w (X ++ Y) = true := by
  obtain ⟨a, b, hab⟩ := containsSub_iff.mp h
  exact containsSub_iff.mpr ⟨X ++ a, b, by rw [hab, List.append_assoc]⟩

theorem containsSub_append_left {w X Y : List Char} (h : containsSub w X = true) :
    containsSub w (X ++ Y) = true := by
  obtain ⟨a, b, hab⟩ := containsSub_iff.mp h
  refine containsSub_iff.mpr ⟨a, b ++ Y, ?_⟩
  rw [hab]
  simp [List.append_assoc]

/-- Where an occurrence can sit relative to an append boundary. -/
theorem append_overlap {X Y a w b : List Char} (h : X ++ Y = a ++ (w ++ b)) :
    (∃ b2, X = a ++ (w ++ b2)) ∨ (∃ a2, Y = a2 ++ (w ++ b)) ∨
      (∃ w1 w2, w = w1 ++ w2 ∧ w1 ≠ [] ∧ w2 ≠ [] ∧ X = a ++ w1 ∧ Y = w2 ++ b) := by
  rcases List.append_eq_append_iff.mp h with ⟨t, ht1, ht2⟩ | ⟨t, ht1, ht2⟩
  · exact Or.inr (Or.inl ⟨t, ht2⟩)
  · rcases List.append_eq_append_iff.mp ht2 with ⟨u, hu1, hu2⟩ | ⟨u, hu1, hu2⟩
    · refine Or.inl ⟨u, ?_⟩
      rw [ht1, hu1]
    · cases hts : t with
      | nil =>
        refine Or.inr (Or.inl ⟨[], ?_⟩)
        rw [hts] at hu1 ht1
        simp only [List.nil_append] at hu1
        rw [List.nil_append, hu2, ← hu1]
      | cons t0 t' =>
        cases hus : u with
        | nil =>
          refine Or.inl ⟨[], ?_⟩
          rw [hus] at hu1
          simp only [List.append_nil] at hu1
          rw [ht1, ← hu1]
          simp
        | cons u0 u' =>
          exact Or.inr (Or.inr ⟨t, u, hu1, by simp [hts], by simp [hus], ht1, hu2⟩)

/-! ### No `" LIMIT "` occurrence can overlap a `LIMIT <digits>` match -/

/-- Scans for an adjacent pair: a space immediately followed by `L`. -/
def hasSpaceL : List Char → Bool
  | a :: b :: rest => (a = ' ' && b = 'L') || hasSpaceL (b :: rest)
  | _ => false

theorem hasSpaceL_of_decomp (a2 tail : List Char) :
    hasSpaceL (a2 ++ (' ' :: 'L' :: tail)) = true := by
  induction a2 with
  | nil => simp [hasSpaceL]
  | cons x a2' ih =>
    rw [List.cons_append]
    cases ha : a2' ++ (' ' :: 'L' :: tail) with
    | nil => exact absurd ha (by simp)
    | cons y rest =>
      rw [ha] at ih
      show hasSpaceL (x :: y :: rest) = true
      simp [hasSpaceL, ih]

theorem hasSpaceL_cons_not_space {c : Char} (hc : c ≠ ' ') (l : List Char) :
    hasSpaceL (c :: l) = hasSpaceL l := by
  cases l with
  | nil => simp [hasSpaceL]
  | cons d r => simp [hasSpaceL, hc]

theorem hasSpaceL_cons_head_ne {c : Char} {l : List Char}
    (hd : ∀ d, l.head? = some d → d ≠ 'L') :
    hasSpaceL (c :: l) = hasSpaceL l := by
  cases l with
  | nil => simp [hasSpaceL]
  | cons d r => simp [hasSpaceL, hd d rfl]

theorem hasSpaceL_digits {ds : List Char} (hd : ∀ c ∈ ds, isDigitCh c = true) :
    hasSpaceL ds = false := by
  induction ds with
  | nil => rfl
  | cons d ds' ih =>
    have hne : d ≠ ' ' := by
      intro heq
      have hdig := hd d (by simp)
      rw [heq] at hdig
      exact absurd hdig (by decide)
    rw [hasSpaceL_cons_not_space hne]
    exact ih fun c hc => hd c (List.mem_cons_of_mem d hc)

theorem hasSpaceL_ws_digits {wsl ds : List Char} (hw : ∀ c ∈ wsl, jsIsWS c = true)
    (hd : ∀ c ∈ ds, isDigitCh c = true) : hasSpaceL (wsl ++ ds) = false := by
  induction wsl with
  | nil => simpa using hasSpaceL_digits hd
  | cons w1 wsl' ih =>
    have hne : ∀ d, (wsl' ++ ds).head? = some d → d ≠ 'L' := by
      intro d hdd heq
      subst heq
      have hmem : 'L' ∈ wsl' ++ ds := by
        cases hcase : wsl' ++ ds with
        | nil =>
          rw [hcase] at hdd
          exact absurd hdd (by simp)
        | cons a t =>
          rw [hcase] at hdd
          have ha : a = 'L' := Option.some.inj hdd
          rw [← ha]
          exact List.mem_cons_self a t
      rcases List.mem_append.mp hmem with hmm2 | hmm2
      · exact absurd (hw 'L' (List.mem_cons_of_mem w1 hmm2)) (by decide)
      · exact absurd (hd 'L' hmm2) (by decide)
    rw [List.cons_append, hasSpaceL_cons_head_ne hne]
    exact ih fun c hc => hw c (List.mem_cons_of_mem w1 hc)

theorem hasSpaceL_M {wsl ds : List Char} (hw : ∀ c ∈ wsl, jsIsWS c = true)
    (hd : ∀ c ∈ ds, isDigitCh c = true) :
    hasSpaceL ("LIMIT".data ++ (wsl ++ ds)) = false := by
  rw [show "LIMIT".data ++ (wsl ++ ds) = 'L' :: 'I' :: 'M' :: 'I' :: 'T' :: (wsl ++ ds)
    from rfl]
  rw [hasSpaceL_cons_not_space (by decide), hasSpaceL_cons_not_space (by decide),
    hasSpaceL_cons_not_space (by decide), hasSpaceL_cons_not_space (by decide),
    hasSpaceL_cons_not_space (by decide)]
  exact hasSpaceL_ws_digits hw hd

/-- The six ways to cut `" LIMIT "` into two non-empty pieces. -/
theorem SL_splits {s1 s2 : List Char} (h : s1 ++ s2 = " LIMIT ".data)
    (h1 : s1 ≠ []) (h2 : s2 ≠ []) :
    (s1 = " ".data ∧ s2 = "LIMIT ".data) ∨ (s1 = " L".data ∧ s2 = "IMIT ".data) ∨
    (s1 = " LI".data ∧ s2 = "MIT ".data) ∨ (s1 = " LIM".data ∧ s2 = "IT ".data) ∨
    (s1 = " LIMI".data ∧ s2 = "T ".data) ∨ (s1 = " LIMIT".data ∧ s2 = " ".data) := by
  have hs1 : s1 = (" LIMIT ".data).take s1.length := by
    rw [← h, List.take_left]
  have hs2 : s2 = (" LIMIT ".data).drop s1.length := by
    rw [← h, List.drop_left]
  have hlen : s1.length + s2.length = 7 := by
    have := congrArg List.length h
    simpa using this
  have hlb : 1 ≤ s1.length := by
    cases hc : s1
    · exact absurd hc h1
    · simp [hc]
  have hub : s1.length ≤ 6 := by
    have h2l : 1 ≤ s2.length := by
      cases hc : s2
      · exact absurd hc h2
      · simp [hc]
    omega
  have hcase : s1.length = 1 ∨ s1.length = 2 ∨ s1.length = 3 ∨ s1.length = 4 ∨
      s1.length = 5 ∨ s1.length = 6 := by omega
  rcases hcase with hk | hk | hk | hk | hk | hk <;> rw [hk] at hs1 hs2
  · exact Or.inl ⟨by rw [hs1]; decide, by rw [hs2]; decide⟩
  · exact Or.inr (Or.inl ⟨by rw [hs1]; decide, by rw [hs2]; decide⟩)
  · exact Or.inr (Or.inr (Or.inl ⟨by rw [hs1]; decide, by rw [hs2]; decide⟩))
  · exact Or.inr (Or.inr (Or.inr (Or.inl ⟨by rw [hs1]; decide, by rw [hs2]; decide⟩)))
  · exact Or.inr (Or.inr (Or.inr (Or.inr (Or.inl
      ⟨by rw [hs1]; decide, by rw [hs2]; decide⟩))))
  · exact Or.inr (Or.inr (Or.inr (Or.inr (Or.inr
      ⟨by rw [hs1]; decide, by rw [hs2]; decide⟩))))

/-- An occurrence of `" LIMIT "` in `P ++ (LIMIT<ws><digits>) ++ R` survives
replacing the matched `<ws><digits>` by `" "` plus any digits: it lies in `P`,
in `R`, or starts at the space just before the match — never inside the
matched text. -/
theorem contains_SL_transfer {P wsl ds R dN : List Char}
    (hw : ∀ c ∈ wsl, jsIsWS c = true) (hd : ∀ c ∈ ds, isDigitCh c = true)
    (hdsne : ds ≠ [])
    (h : containsSub " LIMIT ".data (P ++ (("LIMIT".data ++ (wsl ++ ds)) ++ R)) = true) :
    containsSub " LIMIT ".data (P ++ ("LIMIT ".data ++ (dN ++ R))) = true := by
  obtain ⟨a, b, hab⟩ := containsSub_iff.mp h
  set A := "LIMIT".data ++ (wsl ++ ds) with hA
  rcases append_overlap (X := P) (Y := A ++ R) hab with
    ⟨b2, hP⟩ | ⟨a2, hMR⟩ | ⟨s1, s2, hsl, hs1, hs2, hPs, hMRs⟩
  · exact containsSub_append_left (containsSub_iff.mpr ⟨a, b2, hP⟩)
  · rcases append_overlap (X := A) (Y := R) hMR with
      ⟨b3, hInA⟩ | ⟨a3, hInR⟩ | ⟨t1, t2, htl, ht1, ht2, hAs, hRs⟩
    · exfalso
      have htrue : hasSpaceL A = true := by
        have hshape : A = a2 ++ (' ' :: 'L' :: ("IMIT ".data ++ b3)) := by
          rw [hInA]
          rfl
        rw [hshape]
        exact hasSpaceL_of_decomp a2 _
      rw [hA] at htrue
      rw [hasSpaceL_M hw hd] at htrue
      exact absurd htrue (by simp)
    · exact containsSub_append_right
        (containsSub_append_right
          (containsSub_append_right (containsSub_iff.mpr ⟨a3, b, hInR⟩)))
    · exfalso
      obtain ⟨dlast, hdl, hdig⟩ : ∃ d, ds.getLast? = some d ∧ isDigitCh d = true :=
        ⟨ds.getLast hdsne, List.getLast?_eq_getLast ds hdsne,
          hd _ (List.getLast_mem hdsne)⟩
      have hlastA : A.getLast? = some dlast := by
        rw [hA]
        rw [List.getLast?_append, List.getLast?_append, hdl]
        rfl
      have hlastA2 : A.getLast? = t1.getLast? := by
        rw [hAs, List.getLast?_append]
        cases hct : t1 with
        | nil => exact absurd hct ht1
        | cons q qt =>
          rw [List.getLast?_eq_getLast (q :: qt) (by simp)]
          rfl
      have hlast : t1.getLast? = some dlast := by rw [← hlastA2, hlastA]
      rcases SL_splits htl.symm ht1 ht2 with
        ⟨hx1, _⟩ | ⟨hx1, _⟩ | ⟨hx1, _⟩ | ⟨hx1, _⟩ | ⟨hx1, _⟩ | ⟨hx1, _⟩
      · rw [hx1, show ((" ".data : List Char)).getLast? = some ' ' from rfl] at hlast
        rw [← Option.some.inj hlast] at hdig
        exact absurd hdig (by decide)
      · rw [hx1, show ((" L".data : List Char)).getLast? = some 'L' from rfl] at hlast
        rw [← Option.some.inj hlast] at hdig
        exact absurd hdig (by decide)
      · rw [hx1, show ((" LI".data : List Char)).getLast? = some 'I' from rfl] at hlast
        rw [← Option.some.inj hlast] at hdig
        exact absurd hdig (by decide)
      · rw [hx1, show ((" LIM".data : List Char)).getLast? = some 'M' from rfl] at hlast
        rw [← Option.some.inj hlast] at hdig
        exact absurd hdig (by decide)
      · rw [hx1, show ((" LIMI".data : List Char)).getLast? = some 'I' from rfl] at hlast
        rw [← Option.some.inj hlast] at hdig
        exact absurd hdig (by decide)
      · rw [hx1, show ((" LIMIT".data : List Char)).getLast? = some 'T' from rfl] at hlast
        rw [← Option.some.inj hlast] at hdig
        exact absurd hdig (by decide)
  · rcases SL_splits hsl.symm hs1 hs2 with
      ⟨hx1, hx2⟩ | ⟨hx1, hx2⟩ | ⟨hx1, hx2⟩ | ⟨hx1, hx2⟩ | ⟨hx1, hx2⟩ | ⟨hx1, hx2⟩
    · refine containsSub_iff.mpr ⟨a, dN ++ R, ?_⟩
      rw [hPs, hx1,
        show (" LIMIT ".data : List Char) = " ".data ++ "LIMIT ".data from rfl]
      simp [List.append_assoc]
    · exfalso
      have hhead := congrArg List.head? hMRs
      rw [hx2] at hhead
      rw [show (A ++ R).head? = some 'L' from by rw [hA]; rfl] at hhead
      rw [show (("IMIT ".data : List Char) ++ b).head? = some 'I' from rfl] at hhead
      exact absurd hhead (by decide)
    · exfalso
      have hhead := congrArg List.head? hMRs
      rw [hx2] at hhead
      rw [show (A ++ R).head? = some 'L' from by rw [hA]; rfl] at hhead
      rw [show (("MIT ".data : List Char) ++ b).head? = some 'M' from rfl] at hhead
      exact absurd hhead (by decide)
    · exfalso
      have hhead := congrArg List.head? hMRs
      rw [hx2] at hhead
      rw [show (A ++ R).head? = some 'L' from by rw [hA]; rfl] at hhead
      rw [show (("IT ".data : List Char) ++ b).head? = some 'I' from rfl] at hhead
      exact absurd hhead (by decide)
    · exfalso
      have hhead := congrArg List.head? hMRs
      rw [hx2] at hhead
      rw [show (A ++ R).head? = some 'L' from by rw [hA]; rfl] at hhead
      rw [show (("T ".data : List Char) ++ b).head? = some 'T' from rfl] at hhead
      exact absurd hhead (by decide)
    · exfalso
      have hhead := congrArg List.head? hMRs
      rw [hx2] at hhead
      rw [show (A ++ R).head? = some 'L' from by rw [hA]; rfl] at hhead
      rw [show ((" ".data : List Char) ++ b).head? = some ' ' from rfl] at hhead
      exact absurd hhead (by decide)

/-! ### Idempotence on statements that already carry a LIMIT clause -/

theorem enforceLimit_idem_helper {n : List Char} (htrim : trimWS n = n) (N : Nat)
    (hcont : containsSub " LIMIT ".data (upperL n) = true) :
    enforceLimit (String.mk (enforceNorm n N)) N = String.mk (enforceNorm n N) := by
  cases hfind : findLimitTok n with
  | none =>
    have hres : enforceNorm n N = n := by
      unfold enforceNorm
      rw [if_pos hcont, hfind]
    rw [hres]
    unfold enforceLimit
    rw [show (String.mk n).data = n from rfl, htrim, hres]
  | some x =>
    obtain ⟨k, rem⟩ := x
    by_cases hk : N < k
    case neg =>
      have hres : enforceNorm n N = n := by
        unfold enforceNorm
        rw [if_pos hcont, hfind]
        dsimp only
        rw [if_neg hk]
      rw [hres]
      unfold enforceLimit
      rw [show (String.mk n).data = n from rfl, htrim, hres]
    case pos =>
      have hres : enforceNorm n N = replaceLimitTok n N := by
        unfold enforceNorm
        rw [if_pos hcont, hfind]
        dsimp only
        rw [if_pos hk]
      rw [hres]
      obtain ⟨pre, rest, hn, htok, hnones, hrepl⟩ := findLimitTok_decomp hfind
      obtain ⟨five, w, wsr, ds, hrest, hfive, hwsw, hwsr, hdsne, hdsdig, hkval, hremd⟩ :=
        limitTokAt_decomp htok
      obtain ⟨c0, t0, hc0, hLc0⟩ := limitTokAt_head htok
      have hreq : replaceLimitTok n N = pre ++ ("LIMIT ".data ++ (natDigits N ++ rem)) :=
        hrepl N
      have hhead_n : ∀ c, n.head? = some c → jsIsWS c = false := fun c hc => by
        rw [← htrim] at hc
        exact trimWS_head? hc
      have hlast_n : ∀ c, n.getLast? = some c → jsIsWS c = false := fun c hc => by
        rw [← htrim] at hc
        exact trimWS_getLast? hc
      have htrimr : trimWS (replaceLimitTok n N) = replaceLimitTok n N := by
        rw [hreq]
        apply trimWS_eq_self
        · intro c hc
          cases hpre : pre with
          | nil =>
            rw [hpre, List.nil_append] at hc
            rw [show ("LIMIT ".data ++ (natDigits N ++ rem)).head? = some 'L' from rfl] at hc
            rw [← Option.some.inj hc]
            decide
          | cons p0 pt =>
            rw [hpre, List.cons_append] at hc
            rw [show (p0 :: (pt ++ ("LIMIT ".data ++ (natDigits N ++ rem)))).head? = some p0
              from rfl] at hc
            rw [← Option.some.inj hc]
            apply hhead_n p0
            rw [hn, hpre, List.cons_append]
            rfl
        · intro c hc
          obtain ⟨dl, hdl, hdldig⟩ : ∃ d, (natDigits N).getLast? = some d ∧
              isDigitCh d = true :=
            ⟨(natDigits N).getLast (natDigits_ne_nil N),
              List.getLast?_eq_getLast _ _,
              natDigits_all_digit N _ (List.getLast_mem _)⟩
          cases hrem0 : rem with
          | nil =>
            rw [hrem0] at hc
            simp only [List.getLast?_append, List.getLast?_nil, Option.none_or, hdl,
              Option.or_some] at hc
            rw [← Option.some.inj hc]
            exact ws_of_digit_false hdldig
          | cons r0 rt =>
            rw [hrem0] at hc
            have hlr : (r0 :: rt).getLast? = some ((r0 :: rt).getLast (by simp)) :=
              List.getLast?_eq_getLast _ _
            rw [List.getLast?_append, List.getLast?_append, List.getLast?_append, hlr] at hc
            simp only [Option.or_some] at hc
            apply hlast_n c
            rw [hn, hrest, hrem0,
              show w :: (wsr ++ (ds ++ (r0 :: rt))) = [w] ++ (wsr ++ (ds ++ (r0 :: rt)))
                from rfl]
            simp only [List.getLast?_append, hlr, Option.or_some]
            exact hc
      have hwsl : ∀ c ∈ (w :: wsr), jsIsWS c = true := by
        intro c hc
        rcases List.mem_cons.mp hc with hval | hval
        · rw [hval]
          exact hwsw
        · exact hwsr c hval
      have hfive' : List.map Char.toUpper five = "LIMIT".data := hfive
      have hw' : Char.toUpper w = w := toUpper_ws_id hwsw
      have hwsr' : List.map Char.toUpper wsr = wsr :=
        upperL_id_of fun c hc => toUpper_ws_id (hwsr c hc)
      have hds' : List.map Char.toUpper ds = ds :=
        upperL_id_of fun c hc => toUpper_digit_id (hdsdig c hc)
      have hnd' : List.map Char.toUpper (natDigits N) = natDigits N :=
        upperL_id_of fun c hc => toUpper_digit_id (natDigits_all_digit N c hc)
      have hupper_n : upperL n =
          upperL pre ++ (("LIMIT".data ++ ((w :: wsr) ++ ds)) ++ upperL rem) := by
        rw [hn, hrest]
        simp only [upperL, List.map_append, List.map_cons, hfive', hw', hwsr', hds']
        simp [List.append_assoc]
      have hupper_r : upperL (replaceLimitTok n N) =
          upperL pre ++ ("LIMIT ".data ++ (natDigits N ++ upperL rem)) := by
        rw [hreq]
        simp only [upperL, List.map_append, hnd',
          show List.map Char.toUpper "LIMIT ".data = "LIMIT ".data from by decide]
      have hcontR :
          containsSub " LIMIT ".data (upperL (replaceLimitTok n N)) = true := by
        rw [hupper_r]
        rw [hupper_n] at hcont
        exact contains_SL_transfer hwsl hdsdig hdsne hcont
      have hfindR : findLimitTok (replaceLimitTok n N) = some (N, rem) := by
        rw [hreq]
        apply findLimitTok_append
        · intro p1 p2 hp hne
          exact limitTokAt_none_transfer hne ⟨c0, t0, hc0, hLc0⟩
            ⟨'L', "IMIT ".data ++ (natDigits N ++ rem), rfl, by decide⟩
            (hnones p1 p2 hp hne)
        · exact limitTokAt_replacement N hremd
      unfold enforceLimit
      rw [show (String.mk (replaceLimitTok n N)).data = replaceLimitTok n N from rfl, htrimr]
      have hres2 : enforceNorm (replaceLimitTok n N) N = replaceLimitTok n N := by
        unfold enforceNorm
        rw [if_pos hcontR, hfindR]
        dsimp only
        rw [if_neg (by omega)]
      rw [hres2]

/-- **C6 (amended).**  `enforceLimit` is idempotent on every statement that
already carries a `LIMIT` keyword — precisely: whenever the uppercased trimmed
statement contains `" LIMIT "` (the condition the rewriter itself uses to take
the already-bounded branch), re-applying the rewriter changes nothing.  On
validator-accepted statements *without* such a clause idempotence can fail
(see the counterexample): the first application appends `LIMIT N`, and the
second can clamp digits that merely look like a LIMIT argument inside the
statement text. -/
theorem enforceLimit_idempotent_on_bounded (sql : String) (N : Nat)
    (h : containsSub " LIMIT ".data (upperL (trimWS sql.data)) = true) :
    enforceLimit (enforceLimit sql N) N = enforceLimit sql N :=
  enforceLimit_idem_helper (trimWS_idem sql.data) N h

/-- Witness for the amended C6 on a statement with an explicit LIMIT clause. -/
theorem enforceLimit_idempotent_on_bounded_witness :
    enforceLimit (enforceLimit "SELECT * FROM t LIMIT 50" 10) 10
      = enforceLimit "SELECT * FROM t LIMIT 50" 10 :=
  enforceLimit_idempotent_on_bounded "SELECT * FROM t LIMIT 50" 10 (by decide)

/-! ## `dbExportBatch` (the BatchExportEngine, `src/tools/query.ts`)

The engine is embedded as a pure function over an explicit environment: an
`initialized` flag (the `ConfigManager.isInitialized` check) and an executor
`exec : String → Except String (List Row)` (the driver's `query`, which either
returns rows or raises).  The run returns the produced `ToolResult`, the list
of SQL texts issued to the executor (in order), and the final content of the
output file.  File-system naming details (timestamped default filenames,
directory creation) are abstracted into `outputPath.getD "batch_export"`; the
wall-clock fields of the success payload (`durationMs`, `rowsPerSecond`) and
the fixed `hint` string are outside the model.  The unbounded `while (true)`
loop is given fuel; every iteration issues a query, so any fuel larger than
the number of queries answered by the executor is enough, and exhaustion is
reported as `none`. -/

/-- A JSON value as stored in a result row (the flat fragment the engine
serializes; nested objects would only change the text of a serialized cell). -/
inductive JVal
  | jnull
  | jbool (b : Bool)
  | jnum (n : Int)
  | jstr (s : String)
deriving DecidableEq, Repr

/-- A result row: a flat JSON object, keys in insertion order. -/
abbrev Row := List (String × JVal)

/-- Minimal JSON string escaping (backslash and double quote). -/
def jsonEscape : List Char → List Char
  | [] => []
  | c :: rest =>
    if c = '"' ∨ c = '\\' then '\\' :: c :: jsonEscape rest
    else c :: jsonEscape rest

/-- `JSON.stringify` of a leaf value. -/
def stringifyJVal : JVal → String
  | .jnull => "null"
  | .jbool true => "true"
  | .jbool false => "false"
  | .jnum n =>
    if n < 0 then String.mk ('-' :: natDigits n.natAbs) else String.mk (natDigits n.natAbs)
  | .jstr s => String.mk ('"' :: (jsonEscape s.data ++ ['"']))

/-- `JSON.stringify(row)` for a flat object. -/
def stringifyRow (r : Row) : String :=
  "\x7b" ++ String.intercalate ","
    (r.map fun kv =>
      String.mk ('"' :: (jsonEscape kv.1.data ++ ['"'])) ++ ":" ++ stringifyJVal kv.2)
    ++ "\x7d"

/-- `row[h]` (undefined when the key is absent). -/
def rowGet (r : Row) (h : String) : Option JVal :=
  (r.find? fun kv => kv.1 = h).map Prod.snd

/-- One CSV cell, per the value-quoting in the source: null/undefined become
empty, strings are quoted with embedded quotes doubled, other scalars are
printed with `String(val)`. -/
def csvCell : Option JVal → String
  | none => ""
  | some .jnull => ""
  | some (.jstr s) => String.mk ('"' :: (escQuotes s.data ++ ['"']))
  | some v => stringifyJVal v

inductive ExportFormat
  | json
  | jsonl
  | csv
deriving DecidableEq, Repr

/-- The fields of the success payload that the model tracks. -/
structure ExportPayload where
  filepath : String
  format : ExportFormat
  totalRows : Nat
  batchCount : Nat
  batchSize : Nat
deriving DecidableEq, Repr

/-- `success(...)` / `error(message, details)` from `utils/errors.ts`
(the JSON-text wrapping of the payload is not modelled). -/
inductive ExportResult
  | ok (payload : ExportPayload)
  | err (message : String) (details : Option String)
deriving DecidableEq, Repr

/-- The input fields of `db_export_batch`, with the source's defaults. -/
structure BatchInput where
  sql : String
  outputPath : Option String := none
  format : ExportFormat := .jsonl
  batchSize : Nat := 10000
  maxRows : Option Nat := none

/-- The engine's collaborators. -/
structure BatchEnv where
  initialized : Bool
  exec : String → Except String (List Row)

/-- `/\bORDER\s+BY\b/` at the head of `l` (applied to uppercased text). -/
def orderByAt (l : List Char) : Bool :=
  "ORDER".data.isPrefixOf l &&
    (match l.drop 5 with
     | c :: rest =>
       jsIsWS c && ("BY".data.isPrefixOf (rest.dropWhile jsIsWS)
         && wordBoundaryOk (((rest.dropWhile jsIsWS).drop 2).head?))
     | [] => false)

def orderByScanAux (prev : Option Char) : List Char → Bool
  | [] => false
  | c :: rest =>
    (wordBoundaryOk prev && orderByAt (c :: rest)) || orderByScanAux (some c) rest

/-- `/\bORDER\s+BY\b/i.test sql`, run on the uppercase image. -/
def hasOrderBy (l : List Char) : Bool := orderByScanAux none l

/-- The optional `\s*(OFFSET\s+\d+)?` tail of the strip pattern, starting from
the text after the greedy `\s*` run: if the group fails, the `\s*` whitespace
stays consumed (an optional group never forces backtracking). -/
def offsetTail (afterWs2 : List Char) : List Char :=
  if isCIPrefix "OFFSET" afterWs2 then
    match afterWs2.drop 6 with
    | d :: r2 =>
      if jsIsWS d then
        if ((r2.dropWhile jsIsWS).takeWhile isDigitCh).isEmpty then afterWs2
        else (r2.dropWhile jsIsWS).dropWhile isDigitCh
      else afterWs2
    | [] => afterWs2
  else afterWs2

/-- `LIMIT\s+\d+\s*(OFFSET\s+\d+)?` anchored at the head (case-insensitive):
on success, the remainder of the text after the match. -/
def limOffAt (l : List Char) : Option (List Char) :=
  if isCIPrefix "LIMIT" l then
    match l.drop 5 with
    | c :: rest =>
      if jsIsWS c then
        if ((rest.dropWhile jsIsWS).takeWhile isDigitCh).isEmpty then none
        else some (offsetTail
          (((rest.dropWhile jsIsWS).dropWhile isDigitCh).dropWhile jsIsWS))
      else none
    | [] => none
  else none

/-- `sql.replace(/\bLIMIT\s+\d+\s*(OFFSET\s+\d+)?/gi, '')`: a left-to-right
scan that deletes every `\b`-anchored match and resumes after it; `prev` is
the character before the current position in the *original* text (the word
boundary of a global regex is judged against the original string).  The fuel
is the remaining length, which every step strictly decreases. -/
def stripLimOffAux : Nat → Option Char → List Char → List Char
  | 0, _, l => l
  | fuel + 1, prev, l =>
    match l with
    | [] => []
    | c :: rest =>
      if wordBoundaryOk prev then
        match limOffAt (c :: rest) with
        | some rem =>
          stripLimOffAux fuel
            (((c :: rest).take ((c :: rest).length - rem.length)).getLast?) rem
        | none => c :: stripLimOffAux fuel (some c) rest
      else c :: stripLimOffAux fuel (some c) rest

def stripLimOff (l : List Char) : List Char := stripLimOffAux l.length none l

example : stripLimOff "SELECT * FROM t ORDER BY id LIMIT 50".data
  = "SELECT * FROM t ORDER BY id ".data := by decide
example : stripLimOff "SELECT * FROM t ORDER BY id LIMIT 50 OFFSET 20;".data
  = "SELECT * FROM t ORDER BY id ;".data := by decide
example : hasOrderBy (upperL "SELECT * FROM t ORDER   BY id".data) = true := by decide
example : hasOrderBy (upperL "SELECT * FROM tORDER BY id".data) = false := by decide

/-- `0` is falsy in JavaScript: `maxRows ? ... : ...` treats `maxRows = 0`
like an absent bound. -/
def jsTruthyNat : Option Nat → Option Nat
  | some 0 => none
  | o => o

/-- `${baseQuery} LIMIT ${effectiveLimit} OFFSET ${offset}`. -/
def mkBatchQuery (base : List Char) (limit offset : Nat) : String :=
  String.mk (base ++ " LIMIT ".data ++ natDigits limit ++ " OFFSET ".data ++ natDigits offset)

/-- The per-call loop state of the engine (`ExportJobState`), extended with
the two observables of the model: the output-file content and the query
trace. -/
structure LoopState where
  totalRows : Nat := 0
  batchCount : Nat := 0
  offset : Nat := 0
  isFirstBatch : Bool := true
  headers : List String := []
  file : String
  queries : List String := []
deriving DecidableEq, Repr

inductive LoopOutcome
  | done (st : LoopState)
  | failed (msg : String) (st : LoopState)
  | out
deriving DecidableEq, Repr

def jsonlChunk (rows : List Row) : String :=
  String.intercalate "\n" (rows.map stringifyRow)

def jsonChunk (rows : List Row) : String :=
  String.intercalate ",\n" (rows.map fun r => "  " ++ stringifyRow r)

def csvLine (headers : List String) (r : Row) : String :=
  String.intercalate "," (headers.map fun h => csvCell (rowGet r h))

def csvChunk (headers : List String) (rows : List Row) : String :=
  String.intercalate "\n" (rows.map (csvLine headers))

/-- The batch loop of `dbExportBatch` (source lines 481–552). -/
def runBatchLoop (env : BatchEnv) (base : List Char) (format : ExportFormat)
    (batchSize : Nat) (maxRows : Option Nat) : Nat → LoopState → LoopOutcome
  | 0, _ => .out
  | fuel + 1, st =>
    let effectiveLimit := match jsTruthyNat maxRows with
      | some mr => min batchSize (mr - st.totalRows)
      | none => batchSize
    if effectiveLimit = 0 then .done st
    else
      let q := mkBatchQuery base effectiveLimit st.offset
      match env.exec q with
      | .error e => .failed e { st with queries := st.queries ++ [q] }
      | .ok rows =>
        let st1 := { st with queries := st.queries ++ [q] }
        if rows.length = 0 then .done st1
        else
          let st2 :=
            match format with
            | .jsonl =>
              { st1 with file := st1.file ++ (if 0 < st1.totalRows then "\n" else "")
                  ++ jsonlChunk rows }
            | .csv =>
              let headers := if st1.isFirstBatch then
                  (match rows with
                   | r0 :: _ => r0.map Prod.fst
                   | [] => st1.headers)
                else st1.headers
              let file1 := if st1.isFirstBatch then
                  String.intercalate "," headers ++ "\n"
                else st1.file
              { st1 with headers := headers, file := file1 ++ csvChunk headers rows ++ "\n" }
            | .json =>
              { st1 with file := st1.file ++ (if 0 < st1.totalRows then ",\n" else "")
                  ++ jsonChunk rows }
          let st3 := { st2 with
              totalRows := st2.totalRows + rows.length
              batchCount := st2.batchCount + 1
              offset := st2.offset + rows.length
              isFirstBatch := false }
          if rows.length < effectiveLimit then .done st3
          else match jsTruthyNat maxRows with
            | some mr =>
              if mr ≤ st3.totalRows then .done st3
              else runBatchLoop env base format batchSize maxRows fuel st3
            | none => runBatchLoop env base format batchSize maxRows fuel st3

/-- `dbExportBatch` from `src/tools/query.ts`: guards, base-query rewriting,
the batch loop, and the closing of the JSON-array framing (which the catch
path — an executor error — skips). -/
def dbExportBatch (inp : BatchInput) (env : BatchEnv) (fuel : Nat) :
    Option (ExportResult × List String × String) :=
  if !env.initialized then
    some (.err "Project not initialized. Run db_init first." none, [], "")
  else if !(validateQuery inp.sql).valid then
    some (.err ("Invalid query: " ++ (validateQuery inp.sql).error.getD "") none, [], "")
  else if !(hasOrderBy (upperL inp.sql.data)) then
    some (.err "Query must include ORDER BY clause for consistent pagination" none, [], "")
  else
    match runBatchLoop env (trimWS (stripSemi (trimWS (stripLimOff inp.sql.data))))
        inp.format inp.batchSize inp.maxRows fuel
        { file := if inp.format = .json then "[\n" else "" } with
    | .out => none
    | .failed e st => some (.err "Failed to export data" (some e), st.queries, st.file)
    | .done st =>
      some (.ok {
          filepath := inp.outputPath.getD "batch_export"
          format := inp.format
          totalRows := st.totalRows
          batchCount := st.batchCount
          batchSize := inp.batchSize },
        st.queries,
        if inp.format = .json then st.file ++ "\n]" else st.file)

/-! ### Claim C3: a base query without ORDER BY is rejected before any query -/

/-- **C3.** For every initialized environment and validator-accepted base
query that lacks an `ORDER BY` clause, `dbExportBatch` returns the ordering
error, with an empty query trace (nothing reaches the executor) and nothing
written. -/
theorem dbExportBatch_requires_orderBy (inp : BatchInput) (env : BatchEnv) (fuel : Nat)
    (hinit : env.initialized = true)
    (hvalid : (validateQuery inp.sql).valid = true)
    (hob : hasOrderBy (upperL inp.sql.data) = false) :
    dbExportBatch inp env fuel =
      some (.err "Query must include ORDER BY clause for consistent pagination" none,
        [], "") := by
  unfold dbExportBatch
  rw [if_neg (by simp [hinit]), if_neg (by simp [hvalid]), if_pos (by simp [hob])]

/-- Witness for C3: a plain `SELECT` with no ordering clause. -/
theorem dbExportBatch_requires_orderBy_witness :
    dbExportBatch { sql := "SELECT * FROM t" } ⟨true, fun _ => Except.ok []⟩ 3 =
      some (.err "Query must include ORDER BY clause for consistent pagination" none,
        [], "") :=
  dbExportBatch_requires_orderBy { sql := "SELECT * FROM t" } ⟨true, fun _ => Except.ok []⟩ 3
    rfl (by decide) (by decide)

/-! ### Claim C9: JSON framing is present even for a zero-row export -/

/-- **C9.** In the `json` format the engine writes `"[\n"` before the first
query is issued and appends `"\n]"` after the loop, so an export whose first
query returns zero rows produces a file whose entire content is `"[\n\n]"`
(one query issued, zero batches written). -/
theorem dbExportBatch_json_empty_framing :
    dbExportBatch { sql := "SELECT * FROM t ORDER BY id", format := .json }
        ⟨true, fun _ => Except.ok []⟩ 2 =
      some (.ok {
          filepath := "batch_export"
          format := .json
          totalRows := 0
          batchCount := 0
          batchSize := 10000 },
        ["SELECT * FROM t ORDER BY id LIMIT 10000 OFFSET 0"],
        "[\n\n]") := by decide

/-! ### Claim C7: an executor failure aborts, keeps the partial file, and the
error result does not name the output path -/

/-- The C7 scenario executor: the first page succeeds, everything afterwards
raises. -/
def execFailSecond (q : String) : Except String (List Row) :=
  if q = "SELECT * FROM t ORDER BY id LIMIT 1 OFFSET 0" then
    Except.ok [[("id", JVal.jnum 1)]]
  else Except.error "connection lost"

theorem strExt {s t : String} (h : s.data = t.data) : s = t := by
  cases s
  cases t
  exact congrArg String.mk h

theorem strAppend_data (s t : String) : (s ++ t).data = s.data ++ t.data := rfl

theorem strEmpty_data : ("" : String).data = ([] : List Char) := rfl

theorem jsonlChunk_single (r : Row) : jsonlChunk [r] = stringifyRow r := rfl

/-- Two batch queries over the same base and limit with different offsets are
different strings (decimal rendering is injective). -/
theorem mkBatchQuery_offset_inj {b : List Char} {l o1 o2 : Nat}
    (h : mkBatchQuery b l o1 = mkBatchQuery b l o2) : o1 = o2 := by
  unfold mkBatchQuery at h
  have h1 : b ++ " LIMIT ".data ++ natDigits l ++ " OFFSET ".data ++ natDigits o1
      = b ++ " LIMIT ".data ++ natDigits l ++ " OFFSET ".data ++ natDigits o2 :=
    congrArg String.data h
  have h5 := List.append_cancel_left h1
  have h6 := congrArg digitsToNat h5
  rwa [digitsToNat_natDigits, digitsToNat_natDigits] at h6

/-- The base query of the paging scenarios. -/
def pagedSql : String := "SELECT * FROM t ORDER BY id"

/-! ### Claim C4: three full pages then an empty page -/

/-- The C4 executor: exactly `p` rows for each of the first three page
queries, nothing afterwards. -/
def execThreePages (p : Nat) (row : Row) (q : String) : Except String (List Row) :=
  if q = mkBatchQuery pagedSql.data p 0 ∨ q = mkBatchQuery pagedSql.data p p
      ∨ q = mkBatchQuery pagedSql.data p (2 * p) then
    Except.ok (List.replicate p row)
  else Except.ok []

/-- The batch loop under the C4 executor: three writing iterations, then a
fourth query whose empty answer ends the loop with no write. -/
theorem threePagesLoop_eq (p : Nat) (row : Row) (hp : 0 < p) :
    runBatchLoop ⟨true, execThreePages p row⟩ pagedSql.data .jsonl p none 4 { file := "" }
      = .done {
          totalRows := 3 * p
          batchCount := 3
          offset := 3 * p
          isFirstBatch := false
          headers := []
          file := jsonlChunk (List.replicate p row) ++ "\n"
            ++ jsonlChunk (List.replicate p row) ++ "\n" ++ jsonlChunk (List.replicate p row)
          queries := [mkBatchQuery pagedSql.data p 0, mkBatchQuery pagedSql.data p p,
            mkBatchQuery pagedSql.data p (2 * p), mkBatchQuery pagedSql.data p (3 * p)] } := by
  have hp0 : ¬(p = 0) := by omega
  have h2p : p + p = 2 * p := by omega
  have h3p : 2 * p + p = 3 * p := by omega
  have hne1 : ¬(mkBatchQuery pagedSql.data p (3 * p) = mkBatchQuery pagedSql.data p 0) :=
    fun h => by have := mkBatchQuery_offset_inj h; omega
  have hne2 : ¬(mkBatchQuery pagedSql.data p (3 * p) = mkBatchQuery pagedSql.data p p) :=
    fun h => by have := mkBatchQuery_offset_inj h; omega
  have hne3 : ¬(mkBatchQuery pagedSql.data p (3 * p) = mkBatchQuery pagedSql.data p (2 * p)) :=
    fun h => by have := mkBatchQuery_offset_inj h; omega
  simp only [runBatchLoop, execThreePages, jsTruthyNat, List.length_replicate,
    hp0, h2p, h3p, hne1, hne2, hne3, lt_irrefl, if_false, if_true,
    Nat.zero_add, Nat.add_zero, or_true, true_or, or_false, false_or,
    ite_false, ite_true, List.length_nil, Nat.lt_irrefl]
  have hp2 : 0 < 2 * p := by omega
  rw [if_pos hp, if_pos hp2]
  refine congrArg LoopOutcome.done ?_
  simp only [LoopState.mk.injEq, and_true, true_and]
  constructor
  · apply strExt
    simp [strAppend_data, strEmpty_data]
  · simp

/-- **C4.** If the executor answers each of the first three batch queries with
exactly `pageSize` rows and the fourth with zero rows, the export succeeds
with `batchCount = 3` and `totalRows = 3 * pageSize`; the zero-row answer
terminates the loop without writing an empty batch — the file holds exactly
the three pages. -/
theorem dbExportBatch_three_full_pages (p : Nat) (row : Row) (hp : 0 < p) :
    dbExportBatch { sql := pagedSql, batchSize := p } ⟨true, execThreePages p row⟩ 4 =
      some (.ok {
          filepath := "batch_export"
          format := .jsonl
          totalRows := 3 * p
          batchCount := 3
          batchSize := p },
        [mkBatchQuery pagedSql.data p 0, mkBatchQuery pagedSql.data p p,
          mkBatchQuery pagedSql.data p (2 * p), mkBatchQuery pagedSql.data p (3 * p)],
        jsonlChunk (List.replicate p row) ++ "\n" ++ jsonlChunk (List.replicate p row)
          ++ "\n" ++ jsonlChunk (List.replicate p row)) := by
  have hv : (validateQuery pagedSql).valid = true := by decide
  have ho : hasOrderBy (upperL pagedSql.data) = true := by decide
  have hbase : trimWS (stripSemi (trimWS (stripLimOff pagedSql.data))) = pagedSql.data := by
    decide
  unfold dbExportBatch
  rw [if_neg (by simp), if_neg (by simp [hv]), if_neg (by simp [ho])]
  dsimp only
  rw [hbase, if_neg (show ¬(ExportFormat.jsonl = ExportFormat.json) by decide),
    threePagesLoop_eq p row hp]
  rfl

/-- Witness for C4 at `pageSize = 2` and a one-column row. -/
theorem dbExportBatch_three_full_pages_witness :
    dbExportBatch { sql := pagedSql, batchSize := 2 }
        ⟨true, execThreePages 2 [("id", JVal.jnum 7)]⟩ 4 =
      some (.ok {
          filepath := "batch_export"
          format := .jsonl
          totalRows := 3 * 2
          batchCount := 3
          batchSize := 2 },
        [mkBatchQuery pagedSql.data 2 0, mkBatchQuery pagedSql.data 2 2,
          mkBatchQuery pagedSql.data 2 (2 * 2), mkBatchQuery pagedSql.data 2 (3 * 2)],
        jsonlChunk (List.replicate 2 [("id", JVal.jnum 7)]) ++ "\n"
          ++ jsonlChunk (List.replicate 2 [("id", JVal.jnum 7)]) ++ "\n"
          ++ jsonlChunk (List.replicate 2 [("id", JVal.jnum 7)])) :=
  dbExportBatch_three_full_pages 2 [("id", JVal.jnum 7)] (by decide)

/-! ### Claim C7 (amended): failure semantics of the batch loop -/

/-- The amended-C7 executor: one full single-row page, then every later query
raises `e`. -/
def execOnePageThenFail (e : String) (row : Row) (q : String) : Except String (List Row) :=
  if q = mkBatchQuery pagedSql.data 1 0 then Except.ok [row]
  else Except.error e

/-- The batch loop under the failing executor: the first iteration writes its
page, the second aborts the loop at the failing query. -/
theorem failLoop_eq (e : String) (row : Row) :
    runBatchLoop ⟨true, execOnePageThenFail e row⟩ pagedSql.data .jsonl 1 none 3 { file := "" }
      = .failed e {
          totalRows := 1
          batchCount := 1
          offset := 1
          isFirstBatch := false
          headers := []
          file := stringifyRow row
          queries := [mkBatchQuery pagedSql.data 1 0, mkBatchQuery pagedSql.data 1 1] } := by
  have hne : ¬(mkBatchQuery pagedSql.data 1 1 = mkBatchQuery pagedSql.data 1 0) := by decide
  simp only [runBatchLoop, execOnePageThenFail, jsTruthyNat, hne,
    List.length_cons, List.length_nil, Nat.zero_add, Nat.add_zero,
    lt_irrefl, ite_false, ite_true, if_false, if_true, one_ne_zero]
  refine congrArg (LoopOutcome.failed e) ?_
  simp only [LoopState.mk.injEq, and_true, true_and]
  constructor
  · apply strExt
    simp [strAppend_data, strEmpty_data, jsonlChunk_single]
  · simp

/-- **C7 (amended).** When the executor raises mid-loop, the loop aborts at
the failing query and the partially written output (here, the first page) is
left in place as the file content; but the returned result is only the fixed
message `"Failed to export data"` with the executor's error text as details —
it carries neither the output path nor the progress counters. -/
theorem dbExportBatch_failure_keeps_partial_output (e : String) (row : Row) :
    dbExportBatch { sql := pagedSql, batchSize := 1 } ⟨true, execOnePageThenFail e row⟩ 3 =
      some (.err "Failed to export data" (some e),
        [mkBatchQuery pagedSql.data 1 0, mkBatchQuery pagedSql.data 1 1],
        stringifyRow row) := by
  have hv : (validateQuery pagedSql).valid = true := by decide
  have ho : hasOrderBy (upperL pagedSql.data) = true := by decide
  have hbase : trimWS (stripSemi (trimWS (stripLimOff pagedSql.data))) = pagedSql.data := by
    decide
  unfold dbExportBatch
  rw [if_neg (by simp), if_neg (by simp [hv]), if_neg (by simp [ho])]
  dsimp only
  rw [hbase, if_neg (show ¬(ExportFormat.jsonl = ExportFormat.json) by decide),
    failLoop_eq e row]

/-- **C7 counterexample.**  Two runs that differ only in `outputPath` and fail
mid-loop return *identical* results: the error result cannot be telling the
caller the output path (and it carries no progress counters either — only the
fixed message and the executor's error text). -/
theorem dbExportBatch_error_result_has_no_path :
    dbExportBatch {
        sql := "SELECT * FROM t ORDER BY id"
        format := .jsonl
        batchSize := 1
        outputPath := some "/tmp/a.jsonl" } ⟨true, execFailSecond⟩ 3 =
      dbExportBatch {
        sql := "SELECT * FROM t ORDER BY id"
        format := .jsonl
        batchSize := 1
        outputPath := some "/tmp/b.jsonl" } ⟨true, execFailSecond⟩ 3 ∧
    (some "/tmp/a.jsonl" : Option String) ≠ some "/tmp/b.jsonl" := by
  constructor
  · decide
  · decide

end DbAnalyzer
